import Mathlib

/-!
Verification of the serde-flattened repository: the path codec
(flatten_json_value.rs), the flatten/unflatten tree engine
(flatten_json_value/flatten.rs, flatten_json_value/unflatten.rs), the flat
structural decoder (serde/flattened_map_deserializer.rs), the schema-free type
inference chain (serde/deserializer.rs) and the nested CSV writer
(nested_csv/write.rs).

Rust strings are modelled as lists of characters (`Str`); Rust byte-offset
slicing is only ever applied at boundaries of known prefixes, where it agrees
with character counting.  Machine integers (usize, iN, uN) are modelled as
Nat/Int with the explicit range checks that Rust's checked parsing performs.
-/

namespace SerdeFlat

/-- Rust String / &str, modelled as a list of characters. -/
abbrev Str := List Char

/-- Convenience conversion from Lean string literals. -/
def str (s : String) : Str := s.data

/-- Constant ARR_PFX = "idx-" from flatten_json_value.rs. -/
def ARR_PFX : Str := str "idx-"

/-- Constant JOIN_TAG = "__" from flatten_json_value.rs. -/
def JOIN_TAG : Str := str "__"

@[simp]
theorem ARR_PFX_eq : ARR_PFX = ['i', 'd', 'x', '-'] := rfl

@[simp]
theorem JOIN_TAG_eq : JOIN_TAG = ['_', '_'] := rfl

/-! ### Decimal numerals: Rust usize / integer parsing and formatting -/

/-- Decimal digit character for a value below ten. -/
def digitChar (d : Nat) : Char := Char.ofNat (48 + d)

/-- Value of a decimal digit character, none for a non-digit. -/
def digitVal (c : Char) : Option Nat :=
  if '0' ≤ c ∧ c ≤ '9' then some (c.toNat - 48) else none

/-- Accumulating decimal parser over a digit string. -/
def parseDigitsAux : Str → Nat → Option Nat
  | [], acc => some acc
  | c :: rest, acc =>
    match digitVal c with
    | some d => parseDigitsAux rest (acc * 10 + d)
    | none => none

/-- Parse a non-empty all-digit string as a natural number. -/
def parseDigits : Str → Option Nat
  | [] => none
  | c :: rest => parseDigitsAux (c :: rest) 0

/-- Strip one leading plus sign, as Rust integer parsing accepts. -/
def dropPlus : Str → Str
  | [] => []
  | c :: rest => if c = '+' then rest else c :: rest

/-- Rust usize::from_str on a 64-bit platform: optional plus sign, decimal
digits, value below 2^64; anything else is an error (none). -/
def parseUsize (s : Str) : Option Nat :=
  match parseDigits (dropPlus s) with
  | some v => if v < 2 ^ 64 then some v else none
  | none => none

/-- Fuel-driven decimal formatter accumulating digits in front of acc. -/
def natToDecAux : Nat → Nat → Str → Str
  | 0, _, acc => acc
  | fuel + 1, n, acc =>
    if n = 0 then acc else natToDecAux fuel (n / 10) (digitChar (n % 10) :: acc)

/-- Decimal representation of a natural number, as Rust Display prints it. -/
def natToDec (n : Nat) : Str := if n = 0 then ['0'] else natToDecAux n n []

theorem digitVal_digitChar {d : Nat} (h : d < 10) : digitVal (digitChar d) = some d := by
  interval_cases d <;> decide

theorem digitChar_ne_plus {d : Nat} (h : d < 10) : digitChar d ≠ '+' := by
  interval_cases d <;> decide

theorem digitChar_ne_underscore {d : Nat} (h : d < 10) : digitChar d ≠ '_' := by
  interval_cases d <;> decide

/-- Ten to the number of decimal digits of n (with tenPow 0 = 1). -/
def tenPow : Nat → Nat
  | 0 => 1
  | n + 1 => 10 * tenPow ((n + 1) / 10)
decreasing_by exact Nat.div_lt_self (Nat.succ_pos n) (by norm_num)

theorem tenPow_pos_eq {n : Nat} (h : 0 < n) : tenPow n = 10 * tenPow (n / 10) := by
  cases n with
  | zero => omega
  | succ m => rw [tenPow]

theorem natToDecAux_zero (fuel : Nat) (acc : Str) : natToDecAux fuel 0 acc = acc := by
  cases fuel <;> simp [natToDecAux]

theorem natToDecAux_spec (fuel : Nat) :
    ∀ n acc a, n ≤ fuel →
      parseDigitsAux (natToDecAux fuel n acc) a = parseDigitsAux acc (a * tenPow n + n) := by
  induction fuel with
  | zero =>
    intro n acc a hn
    have hn0 : n = 0 := Nat.le_zero.mp hn
    subst hn0
    simp [natToDecAux, tenPow]
  | succ fuel ih =>
    intro n acc a hn
    by_cases h0 : n = 0
    · subst h0; simp [natToDecAux, tenPow]
    · have hlt : n / 10 ≤ fuel := by
        have : n / 10 < n := Nat.div_lt_self (Nat.pos_of_ne_zero h0) (by norm_num)
        omega
      rw [natToDecAux, if_neg h0, ih (n / 10) _ a hlt]
      simp only [parseDigitsAux, digitVal_digitChar (Nat.mod_lt n (by norm_num))]
      congr 1
      rw [tenPow_pos_eq (Nat.pos_of_ne_zero h0)]
      have key : 10 * (n / 10) + n % 10 = n := Nat.div_add_mod n 10
      calc (a * tenPow (n / 10) + n / 10) * 10 + n % 10
          = a * (10 * tenPow (n / 10)) + (10 * (n / 10) + n % 10) := by ring
        _ = a * (10 * tenPow (n / 10)) + n := by rw [key]

/-- Shape of the formatted numeral of a positive number: it starts with a
digit character. -/
theorem natToDecAux_shape (fuel : Nat) :
    ∀ n acc, 0 < n → n ≤ fuel →
      ∃ d rest, natToDecAux fuel n acc = digitChar d :: rest ∧ d < 10 := by
  induction fuel with
  | zero => intro n acc h1 h2; omega
  | succ fuel ih =>
    intro n acc h1 h2
    rw [natToDecAux, if_neg (Nat.pos_iff_ne_zero.mp h1)]
    by_cases hq : n / 10 = 0
    · rw [hq, natToDecAux_zero]
      exact ⟨n % 10, acc, rfl, Nat.mod_lt n (by norm_num)⟩
    · have hlt : n / 10 ≤ fuel := by
        have : n / 10 < n := Nat.div_lt_self h1 (by norm_num)
        omega
      exact ih (n / 10) _ (Nat.pos_of_ne_zero hq) hlt

theorem parseDigits_natToDec (n : Nat) : parseDigits (natToDec n) = some n := by
  by_cases h0 : n = 0
  · subst h0; decide
  · rw [natToDec, if_neg h0]
    obtain ⟨d, rest, heq, hd⟩ := natToDecAux_shape n n [] (Nat.pos_of_ne_zero h0) le_rfl
    rw [heq, parseDigits, ← heq, natToDecAux_spec n n [] 0 le_rfl]
    simp [parseDigitsAux]

theorem dropPlus_natToDec (n : Nat) : dropPlus (natToDec n) = natToDec n := by
  by_cases h0 : n = 0
  · subst h0; decide
  · rw [natToDec, if_neg h0]
    obtain ⟨d, rest, heq, hd⟩ := natToDecAux_shape n n [] (Nat.pos_of_ne_zero h0) le_rfl
    rw [heq, dropPlus, if_neg (digitChar_ne_plus hd)]

theorem parseUsize_natToDec {n : Nat} (h : n < 2 ^ 64) : parseUsize (natToDec n) = some n := by
  simp only [parseUsize, dropPlus_natToDec, parseDigits_natToDec]
  rw [if_pos h]

/-- Every character of the formatted numeral is a decimal digit. -/
theorem natToDecAux_chars (fuel : Nat) :
    ∀ n acc c, c ∈ natToDecAux fuel n acc → c ∈ acc ∨ ∃ d, d < 10 ∧ c = digitChar d := by
  induction fuel with
  | zero => intro n acc c hc; exact Or.inl hc
  | succ fuel ih =>
    intro n acc c hc
    by_cases h0 : n = 0
    · subst h0; rw [natToDecAux_zero] at hc; exact Or.inl hc
    · rw [natToDecAux, if_neg h0] at hc
      rcases ih (n / 10) _ c hc with hmem | hdig
      · rcases List.mem_cons.mp hmem with hmem1 | hmem2
        · exact Or.inr ⟨n % 10, Nat.mod_lt n (by norm_num), hmem1⟩
        · exact Or.inl hmem2
      · exact Or.inr hdig

theorem natToDec_no_underscore (n : Nat) : ∀ c ∈ natToDec n, c ≠ '_' := by
  intro c hc
  by_cases h0 : n = 0
  · subst h0; simp [natToDec] at hc; subst hc; decide
  · rw [natToDec, if_neg h0] at hc
    rcases natToDecAux_chars n n [] c hc with hmem | ⟨d, hd, rfl⟩
    · exact absurd hmem (List.not_mem_nil c)
    · exact digitChar_ne_underscore hd

/-! ### Splitting and joining on the separator "__" (Rust str::split) -/

/-- Accumulating splitter on the two-character separator, with the current
token collected in reverse in acc; mirrors Rust split("__") which scans left
to right taking the earliest non-overlapping matches. -/
def splitTagAux : Str → Str → List Str
  | acc, [] => [acc.reverse]
  | acc, [c] => [(c :: acc).reverse]
  | acc, c1 :: c2 :: rest =>
    if c1 = '_' ∧ c2 = '_' then acc.reverse :: splitTagAux [] rest
    else splitTagAux (c1 :: acc) (c2 :: rest)

/-- Rust key.split(JOIN_TAG) collected to a list. -/
def splitTag (s : Str) : List Str := splitTagAux [] s

/-- Rust-style intercalation with the separator "__": the inverse direction,
as produced by Itertools::join in flatten.rs. -/
def joinTag : List Str → Str
  | [] => []
  | [t] => t
  | t :: ts@(_ :: _) => t ++ '_' :: '_' :: joinTag ts

/-- Does the string contain an occurrence of the separator "__"? -/
def hasSep : Str → Bool
  | [] => false
  | [_] => false
  | c1 :: c2 :: rest => (c1 = '_' && c2 = '_') || hasSep (c2 :: rest)

/-- Does the string end in an underscore? -/
def endsU (s : Str) : Bool := s.getLast? == some '_'

/-- A token survives the join/split round trip next to other tokens iff it
contains no separator occurrence and does not end in an underscore. -/
def goodToken (s : Str) : Bool := !hasSep s && !endsU s

theorem splitTagAux_noSep :
    ∀ t acc, hasSep t = false → splitTagAux acc t = [acc.reverse ++ t]
  | [], acc => by intro _; simp [splitTagAux]
  | [c], acc => by intro _; simp [splitTagAux]
  | c1 :: c2 :: rest, acc => by
    intro h
    rw [hasSep] at h
    simp only [Bool.or_eq_false_iff, Bool.and_eq_false_iff] at h
    obtain ⟨h1, h2⟩ := h
    rw [splitTagAux, if_neg (by
      rintro ⟨rfl, rfl⟩
      rcases h1 with h1 | h1 <;> simp at h1)]
    rw [splitTagAux_noSep (c2 :: rest) (c1 :: acc) h2]
    simp

theorem splitTagAux_token :
    ∀ t acc w, hasSep t = false → endsU t = false →
      splitTagAux acc (t ++ '_' :: '_' :: w) = (acc.reverse ++ t) :: splitTagAux [] w
  | [], acc, w => by
    intro _ _
    simp only [List.nil_append]
    rw [splitTagAux, if_pos ⟨rfl, rfl⟩]
    simp
  | [c], acc, w => by
    intro _ hend
    have hc : c ≠ '_' := by
      intro hc; subst hc; simp [endsU] at hend
    simp only [List.cons_append, List.nil_append]
    rw [splitTagAux, if_neg (by rintro ⟨rfl, _⟩; exact hc rfl)]
    rw [splitTagAux, if_pos ⟨rfl, rfl⟩]
    simp
  | c1 :: c2 :: rest, acc, w => by
    intro hsep hend
    rw [hasSep] at hsep
    simp only [Bool.or_eq_false_iff, Bool.and_eq_false_iff] at hsep
    obtain ⟨h1, h2⟩ := hsep
    have hend2 : endsU (c2 :: rest) = false := by
      simpa [endsU, List.getLast?_cons_cons] using hend
    simp only [List.cons_append]
    rw [splitTagAux, if_neg (by
      rintro ⟨rfl, rfl⟩
      rcases h1 with h1 | h1 <;> simp at h1)]
    rw [show c2 :: (rest ++ '_' :: '_' :: w) = (c2 :: rest) ++ '_' :: '_' :: w from rfl]
    rw [splitTagAux_token (c2 :: rest) (c1 :: acc) w h2 hend2]
    simp

/-- Round trip of the separator codec: joining good tokens and splitting
again recovers the tokens. -/
theorem splitTag_joinTag :
    ∀ ts, ts ≠ [] → (∀ t ∈ ts, goodToken t = true) → splitTag (joinTag ts) = ts
  | [], _ => by intro h; exact absurd rfl (by assumption)
  | [t], _ => by
    intro hgood
    have := hgood t (List.mem_singleton.mpr rfl)
    simp only [goodToken, Bool.and_eq_true, Bool.not_eq_true'] at this
    rw [joinTag, splitTag, splitTagAux_noSep t [] this.1]
    simp
  | t :: t2 :: ts, _ => by
    intro hgood
    have hgt := hgood t (by simp)
    simp only [goodToken, Bool.and_eq_true, Bool.not_eq_true'] at hgt
    rw [joinTag, splitTag]
    rw [show ('_' :: '_' :: joinTag (t2 :: ts)) = '_' :: '_' :: joinTag (t2 :: ts) from rfl]
    rw [splitTagAux_token t [] _ hgt.1 hgt.2]
    have : splitTag (joinTag (t2 :: ts)) = t2 :: ts :=
      splitTag_joinTag (t2 :: ts) (by simp) (fun u hu => hgood u (by simp [hu]))
    rw [splitTag] at this
    rw [this]
    simp

/-! ### Path segments (flatten_json_value.rs) -/

/-- Segment: one step of a path, an array index or a field name. -/
inductive Segment where
  | idx (n : Nat)
  | field (s : Str)
deriving Repr, DecidableEq

/-- Segment::to_string: an index renders as "idx-" followed by its decimal
value, a field as its literal name. -/
def Segment.toStr : Segment → Str
  | .idx n => ARR_PFX ++ natToDec n
  | .field s => s

/-- Strip a literal prefix, as Rust str::strip_prefix. -/
def stripPfx : Str → Str → Option Str
  | [], s => some s
  | _ :: _, [] => none
  | p :: ps, c :: cs => if p = c then stripPfx ps cs else none

theorem stripPfx_append : ∀ p r : Str, stripPfx p (p ++ r) = some r
  | [], r => rfl
  | p :: ps, r => by rw [List.cons_append, stripPfx, if_pos rfl, stripPfx_append ps r]

/-- Segment::from_str: strip the "idx-" prefix and parse the remainder as a
usize; on any failure the whole token is a field name.  Never fails. -/
def Segment.fromStr (s : Str) : Segment :=
  match stripPfx ARR_PFX s with
  | some rest =>
    match parseUsize rest with
    | some n => .idx n
    | none => .field s
  | none => .field s

theorem Segment.fromStr_toStr_idx {n : Nat} (h : n < 2 ^ 64) :
    Segment.fromStr (Segment.toStr (.idx n)) = .idx n := by
  simp only [Segment.toStr, Segment.fromStr, stripPfx_append, parseUsize_natToDec h]

/-! ### The generic value tree (serde_json::Value) -/

/-- Generic JSON value tree.  Numbers are carried as integers: every claim
treats a number as an opaque scalar that is moved around unchanged, so the
carrier type of numbers is irrelevant to the statements. -/
inductive JValue where
  | null
  | bool (b : Bool)
  | num (n : Int)
  | str (s : Str)
  | arr (xs : List JValue)
  | obj (kvs : List (Str × JValue))
deriving Repr

mutual

def JValue.beq : JValue → JValue → Bool
  | .null, .null => true
  | .bool a, .bool b => a == b
  | .num a, .num b => a == b
  | .str a, .str b => a == b
  | .arr xs, .arr ys => JValue.beqList xs ys
  | .obj xs, .obj ys => JValue.beqObj xs ys
  | _, _ => false

def JValue.beqList : List JValue → List JValue → Bool
  | [], [] => true
  | x :: xs, y :: ys => JValue.beq x y && JValue.beqList xs ys
  | _, _ => false

def JValue.beqObj : List (Str × JValue) → List (Str × JValue) → Bool
  | [], [] => true
  | (k1, v1) :: xs, (k2, v2) :: ys => k1 == k2 && JValue.beq v1 v2 && JValue.beqObj xs ys
  | _, _ => false

end

mutual

theorem JValue.beq_iff : ∀ a b : JValue, JValue.beq a b = true ↔ a = b
  | .null, .null => by simp [JValue.beq]
  | .null, .bool _ | .null, .num _ | .null, .str _ | .null, .arr _ | .null, .obj _ => by
    simp [JValue.beq]
  | .bool _, .null | .bool _, .num _ | .bool _, .str _ | .bool _, .arr _ | .bool _, .obj _ => by
    simp [JValue.beq]
  | .bool _, .bool _ => by simp [JValue.beq]
  | .num _, .null | .num _, .bool _ | .num _, .str _ | .num _, .arr _ | .num _, .obj _ => by
    simp [JValue.beq]
  | .num _, .num _ => by simp [JValue.beq]
  | .str _, .null | .str _, .bool _ | .str _, .num _ | .str _, .arr _ | .str _, .obj _ => by
    simp [JValue.beq]
  | .str _, .str _ => by simp [JValue.beq]
  | .arr _, .null | .arr _, .bool _ | .arr _, .num _ | .arr _, .str _ | .arr _, .obj _ => by
    simp [JValue.beq]
  | .arr xs, .arr ys => by simp [JValue.beq, JValue.beqList_iff xs ys]
  | .obj _, .null | .obj _, .bool _ | .obj _, .num _ | .obj _, .str _ | .obj _, .arr _ => by
    simp [JValue.beq]
  | .obj xs, .obj ys => by simp [JValue.beq, JValue.beqObj_iff xs ys]

theorem JValue.beqList_iff : ∀ xs ys : List JValue, JValue.beqList xs ys = true ↔ xs = ys
  | [], [] => by simp [JValue.beqList]
  | [], _ :: _ => by simp [JValue.beqList]
  | _ :: _, [] => by simp [JValue.beqList]
  | x :: xs, y :: ys => by
    simp [JValue.beqList, JValue.beq_iff x y, JValue.beqList_iff xs ys]

theorem JValue.beqObj_iff :
    ∀ xs ys : List (Str × JValue), JValue.beqObj xs ys = true ↔ xs = ys
  | [], [] => by simp [JValue.beqObj]
  | [], _ :: _ => by simp [JValue.beqObj]
  | _ :: _, [] => by simp [JValue.beqObj]
  | (k1, v1) :: xs, (k2, v2) :: ys => by
    simp [JValue.beqObj, JValue.beq_iff v1 v2, JValue.beqObj_iff xs ys, and_assoc]

end

instance : DecidableEq JValue := fun a b => decidable_of_iff _ (JValue.beq_iff a b)

/-- Scalar values are the leaf kinds: null, bool, number, string. -/
def isScalar : JValue → Bool
  | .null | .bool _ | .num _ | .str _ => true
  | .arr _ | .obj _ => false

/-! ### The flatten engine (flatten_json_value/flatten.rs) -/

mutual

/-- flattened_iter: depth-first emission of (path, scalar) pairs; arrays
extend the prefix with an index segment per position, objects with a field
segment per entry, scalars emit one pair. -/
def flattenedIter (pfx : List Segment) : JValue → List (List Segment × JValue)
  | .arr xs => flattenedArr pfx 0 xs
  | .obj kvs => flattenedObj pfx kvs
  | other => [(pfx, other)]

def flattenedArr (pfx : List Segment) (i : Nat) : List JValue → List (List Segment × JValue)
  | [] => []
  | x :: xs => flattenedIter (pfx ++ [.idx i]) x ++ flattenedArr pfx (i + 1) xs

def flattenedObj (pfx : List Segment) : List (Str × JValue) → List (List Segment × JValue)
  | [] => []
  | (k, v) :: kvs => flattenedIter (pfx ++ [.field k]) v ++ flattenedObj pfx kvs

end

/-- Encoded form of a path: tokens of the segments joined with "__". -/
def encodePath (p : List Segment) : Str := joinTag (p.map Segment.toStr)

/-- Insert into an insertion-ordered string map as serde_json's preserve-order
Map (and indexmap) do: an existing key keeps its position and its value is
replaced; a new key is appended at the end. -/
def mapInsert : List (Str × JValue) → Str → JValue → List (Str × JValue)
  | [], k, v => [(k, v)]
  | (k', v') :: rest, k, v =>
    if k' = k then (k', v) :: rest else (k', v') :: mapInsert rest k v

/-- Collect a pair sequence into an insertion-ordered map. -/
def mapCollect (l : List (Str × JValue)) : List (Str × JValue) :=
  l.foldl (fun m kv => mapInsert m kv.1 kv.2) []

/-- First value stored under a key in an insertion-ordered map. -/
def mapGet : List (Str × JValue) → Str → Option JValue
  | [], _ => none
  | (k', v) :: rest, k => if k' = k then some v else mapGet rest k

/-- flattened: the full flatten engine, emitting pairs depth-first from the
empty prefix and collecting them into an ordered map keyed by encoded paths. -/
def flattened (value : JValue) : List (Str × JValue) :=
  mapCollect ((flattenedIter [] value).map (fun pv => (encodePath pv.1, pv.2)))

/-! ### The unflatten engine (flatten_json_value/unflatten.rs) -/

/-- Errors of the unflatten engine, mirroring unflatten.rs Error. -/
inductive UError where
  | unsupportedTopLevelValue (kind : Str)
  | unsupportedChildValue (key : Str)
  | other (msg : Str)
deriving Repr, DecidableEq

/-- Outcome of building: a value, an error result, or a process abort
(a Rust panic, which is not an error return). -/
inductive BuildOutcome where
  | ok (v : JValue)
  | err (msg : Str)
  | abort (msg : Str)
deriving Repr, DecidableEq

/-- Kind name of a value as printed by the unflatten top-level error (the
trailing space after Null is verbatim from the source). -/
def kindName : JValue → Str
  | .null => str "Value::Null "
  | .bool _ => str "Value::Bool"
  | .num _ => str "Value::Number"
  | .str _ => str "Value::String"
  | .arr _ => str "Value::Array"
  | .obj _ => str "Value::Object"

/-- Decode an encoded key back into a path: split on "__" and decode each
token (unflatten_iter in unflatten.rs). -/
def parsePath (k : Str) : List Segment := (splitTag k).map Segment.fromStr

mutual

/-- ValueBuilder::apply: walk the path against the value under construction.
At an index segment the node must be an array (or null, which is materialized
as an empty array); at a field segment an object likewise; at the end of the
path the scalar is assigned, overwriting the node. -/
def applyPath : JValue → List Segment → JValue → BuildOutcome
  | _, [], leaf => .ok leaf
  | v, .idx i :: rest, leaf =>
    match v with
    | .arr xs => applyIdx xs i rest leaf
    | .null => applyIdx [] i rest leaf
    | .bool _ => .err (str "found bool, expected array or null")
    | .num _ => .err (str "found number, expected array or null")
    | .str _ => .err (str "found string, expected array or null")
    | .obj _ => .err (str "found object, expected array or null")
  | v, .field k :: rest, leaf =>
    match v with
    | .obj kvs => applyField kvs k rest leaf
    | .null => applyField [] k rest leaf
    | .bool _ => .err (str "found bool, expected object or null")
    | .num _ => .err (str "found number, expected object or null")
    | .str _ => .err (str "found string, expected object or null")
    | .arr _ => .err (str "found array, expected object or null")
termination_by _v path _leaf => path.length * 2

/-- ArrayBuilder::get_or_create followed by the recursive apply.  Within
bounds the existing slot is updated; at the current length a null slot is
appended first; past the length Vec::insert panics, modelled as abort. -/
def applyIdx (xs : List JValue) (i : Nat) (rest : List Segment) (leaf : JValue) :
    BuildOutcome :=
  if i < xs.length then
    match applyPath (xs.getD i .null) rest leaf with
    | .ok v' => .ok (.arr (xs.set i v'))
    | e => e
  else if i = xs.length then
    match applyPath .null rest leaf with
    | .ok v' => .ok (.arr (xs ++ [v']))
    | e => e
  else
    .abort (str "insertion index (is " ++ natToDec i ++
      str ") should be <= len (is " ++ natToDec xs.length ++ str ")")
termination_by rest.length * 2 + 1

/-- ObjectBuilder::get_or_create followed by the recursive apply: a missing
key is first inserted with a null value (hence appended at the end), then the
slot is updated in place. -/
def applyField (kvs : List (Str × JValue)) (k : Str) (rest : List Segment)
    (leaf : JValue) : BuildOutcome :=
  match applyPath ((mapGet kvs k).getD .null) rest leaf with
  | .ok v' => .ok (.obj (mapInsert kvs k v'))
  | e => e
termination_by rest.length * 2 + 1

end

/-- Outcome of the whole unflatten call. -/
inductive UOutcome where
  | ok (v : JValue)
  | err (e : UError)
  | abort (msg : Str)
deriving Repr, DecidableEq

/-- Fold of unflatten_iter into ValueBuilder::apply (the try_fold inside
unflattened): pairs are validated to be scalar and applied in order; the
first error stops the fold. -/
def unflattenedGo : JValue → List (Str × JValue) → UOutcome
  | acc, [] => .ok acc
  | acc, (k, v) :: rest =>
    if isScalar v then
      match applyPath acc (parsePath k) v with
      | .ok acc' => unflattenedGo acc' rest
      | .err m => .err (.other m)
      | .abort m => .abort m
    else .err (.unsupportedChildValue k)

/-- unflattened: requires the top level to be an object, then rebuilds the
tree from the (key, scalar) pairs starting from a null root. -/
def unflattened : JValue → UOutcome
  | .obj kvs => unflattenedGo .null kvs
  | other => .err (.unsupportedTopLevelValue (kindName other))

/-! ### Semantic helpers for the unflatten proof

These definitions are specification-side devices used to characterize what
applyPath computes; applyPath itself (above) is the translation of the
source. -/

/-- View of a node as an array under materialization: null materializes to
the empty array, an array is itself, anything else cannot be an array. -/
def arrView : JValue → Option (List JValue)
  | .null => some []
  | .arr xs => some xs
  | _ => none

/-- View of a node as an object under materialization. -/
def objView : JValue → Option (List (Str × JValue))
  | .null => some []
  | .obj kvs => some kvs
  | _ => none

/-- The node reached by walking a path through materializing views, with
null standing for any missing slot. -/
def atPathV : JValue → List Segment → JValue
  | v, [] => v
  | v, .idx i :: rest => atPathV (((arrView v).getD []).getD i .null) rest
  | v, .field k :: rest => atPathV ((mapGet ((objView v).getD []) k).getD .null) rest

/-- The walk that applyPath performs succeeds (no kind conflict and no
out-of-range index) along the path. -/
def CanApply : JValue → List Segment → Prop
  | _, [] => True
  | v, .idx i :: rest =>
    (arrView v).isSome = true ∧ i ≤ ((arrView v).getD []).length ∧
      CanApply (((arrView v).getD []).getD i .null) rest
  | v, .field k :: rest =>
    (objView v).isSome = true ∧ CanApply ((mapGet ((objView v).getD []) k).getD .null) rest

/-- Functional description of a successful applyPath: replace the node at the
path, materializing arrays and objects along the way (appending at an index
equal to the current length, inserting a missing field at the end). -/
def setAt : JValue → List Segment → JValue → JValue
  | _, [], w => w
  | v, .idx i :: rest, w =>
    let xs := (arrView v).getD []
    if i < xs.length then .arr (xs.set i (setAt (xs.getD i .null) rest w))
    else .arr (xs ++ [setAt .null rest w])
  | v, .field k :: rest, w =>
    let kvs := (objView v).getD []
    .obj (mapInsert kvs k (setAt ((mapGet kvs k).getD .null) rest w))

/-- Fold of applyPath over a pair list, stopping at the first failure (the
try_fold of unflattened, at the level of decoded paths). -/
def applyAll : JValue → List (List Segment × JValue) → BuildOutcome
  | acc, [] => .ok acc
  | acc, (p, leaf) :: rest =>
    match applyPath acc p leaf with
    | .ok acc' => applyAll acc' rest
    | e => e

/-- A field name that survives the whole encode/decode cycle: it decodes as
a field (it does not look like an index token), contains no separator
occurrence, and does not end in an underscore. -/
def goodField (f : Str) : Bool :=
  (match Segment.fromStr f with
   | .field _ => true
   | .idx _ => false) && !hasSep f && !endsU f

/-- A segment whose encoded token decodes back to itself: any such field
name, and any index below the 64-bit machine word bound. -/
def goodSeg : Segment → Bool
  | .idx n => decide (n < 2 ^ 64)
  | .field f => goodField f

/-- Distinctness of a key list. -/
def keysDistinct : List Str → Bool
  | [] => true
  | k :: ks => decide (k ∉ ks) && keysDistinct ks

mutual

/-- Well-formedness of a tree for the round-trip law: no empty array or
object, arrays no longer than the machine word bound, sibling object keys
distinct, and every field name a good token. -/
def WFv : JValue → Bool
  | .null => true
  | .bool _ => true
  | .num _ => true
  | .str _ => true
  | .arr xs => decide (xs ≠ []) && decide (xs.length ≤ 2 ^ 64) && WFvList xs
  | .obj kvs => decide (kvs ≠ []) && keysDistinct (kvs.map Prod.fst) && WFvObj kvs

def WFvList : List JValue → Bool
  | [] => true
  | x :: xs => WFv x && WFvList xs

def WFvObj : List (Str × JValue) → Bool
  | [] => true
  | (k, v) :: kvs => goodField k && WFv v && WFvObj kvs

end

mutual

/-- Spec-side predicate, following the claim's words: the tree contains no
empty array and no empty object (its leaves are scalars by construction). -/
def noEmpty : JValue → Bool
  | .arr xs => decide (xs ≠ []) && noEmptyList xs
  | .obj kvs => decide (kvs ≠ []) && noEmptyObj kvs
  | _ => true

def noEmptyList : List JValue → Bool
  | [] => true
  | x :: xs => noEmpty x && noEmptyList xs

def noEmptyObj : List (Str × JValue) → Bool
  | [] => true
  | (_, v) :: kvs => noEmpty v && noEmptyObj kvs

end

/-! ### The flat structural decoder (serde/flattened_map_deserializer.rs)

The Rust decoder is a serde Deserializer driven by the target type, which
calls one method per requested shape.  It is embedded as a closed shape type
and one decode function dispatching on the shape; the visitor side (what the
derived target type does with the decoded pieces) is the standard serde
derive behaviour: structs decode their declared fields, options wrap, enums
pick a variant by tag. -/

/-- Requested target shape. -/
inductive Shape where
  | bool
  | char
  | strS
  | int (signed : Bool) (bits : Nat)
  | opt (s : Shape)
  | seqOf (s : Shape)
  | structS (fields : List (Str × Shape))
  | enumS (variants : List (Str × Option Shape))
deriving Repr

/-- Decoded values. -/
inductive DVal where
  | vBool (b : Bool)
  | vChar (c : Char)
  | vStr (s : Str)
  | vInt (n : Int)
  | vNone
  | vSome (v : DVal)
  | vSeq (xs : List DVal)
  | vStruct (fields : List (Str × DVal))
  | vVariant (tag : Str) (payload : Option DVal)
deriving Repr

/-- Decoder errors, mirroring the Error enum of the deserializer module. -/
inductive DErr where
  | custom (msg : Str)
  | missingField (f : Str)
  | invalidType (expected : Str) (got : Str)
deriving Repr, DecidableEq

/-- Lookup in the flat record (indexmap::IndexMap get). -/
def assocGet : List (Str × Str) → Str → Option Str
  | [], _ => none
  | (k', v) :: rest, k => if k' = k then some v else assocGet rest k

/-- FlattenedMapDeserializer::get_leaf_value: the exact key at the current
prefix, and never a leaf at the empty (root) prefix. -/
def getLeafValue (data : List (Str × Str)) (pfx : Str) : Option Str :=
  if pfx = [] then none else assocGet data pfx

/-- FlattenedMapDeserializer::child_fields: first token of every key that
extends the prefix with the separator (or of every key at the root prefix),
skipping empty tokens, deduplicated in first-seen order. -/
def childFields (data : List (Str × Str)) (pfx : Str) : List Str :=
  go [] data
where
  go (acc : List Str) : List (Str × Str) → List Str
    | [] => acc
    | (k, _) :: rest =>
      let relevant : Option Str :=
        if pfx = [] then some k
        else if pfx.isPrefixOf k && JOIN_TAG.isPrefixOf (k.drop pfx.length) then
          some (k.drop (pfx.length + JOIN_TAG.length))
        else none
      match relevant with
      | some r =>
        let f := (splitTag r).headD r
        if f ≠ [] ∧ f ∉ acc then go (acc ++ [f]) rest else go acc rest
      | none => go acc rest

/-- FlattenedMapDeserializer::has_non_empty_descendants: is there an entry
whose key is the prefix itself or extends it with the separator (any entry at
the root prefix) and whose text is non-empty? -/
def hasNonEmptyDescendants (data : List (Str × Str)) (pfx : Str) : Bool :=
  data.any fun kv =>
    (decide (pfx = []) || (kv.1 = pfx : Bool) ||
      (pfx.isPrefixOf kv.1 && JOIN_TAG.isPrefixOf (kv.1.drop pfx.length))) &&
    !kv.2.isEmpty

/-- Insertion sort used to model Vec::sort on the collected indices. -/
def insertSorted (n : Nat) : List Nat → List Nat
  | [] => [n]
  | m :: rest => if n ≤ m then n :: m :: rest else m :: insertSorted n rest

def sortNat : List Nat → List Nat
  | [] => []
  | n :: rest => insertSorted n (sortNat rest)

/-- FlattenedMapDeserializer::array_indices: child tokens that strip the
"idx-" prefix and parse as usize, sorted ascending. -/
def arrayIndices (data : List (Str × Str)) (pfx : Str) : List Nat :=
  sortNat ((childFields data pfx).filterMap fun f =>
    match stripPfx ARR_PFX f with
    | some r => parseUsize r
    | none => none)

/-- Prefix extension as done by MapAccessor / SeqAccessor / EnumAccessor. -/
def extendPfx (pfx tok : Str) : Str := if pfx = [] then tok else pfx ++ JOIN_TAG ++ tok

/-- Split a leading sign character off a numeral, as Rust integer parsing
does (at most one sign character). -/
def splitSign (s : Str) : Bool × Str :=
  match s with
  | [] => (false, [])
  | c :: cs => if c = '-' then (true, cs) else if c = '+' then (false, cs) else (false, c :: cs)

/-- Rust signed/unsigned integer from_str with the width's range check:
optional sign (minus only when signed), decimal digits, value in range. -/
def parseRustInt (signed : Bool) (bits : Nat) (s : Str) : Option Int :=
  match parseDigits (splitSign s).2 with
  | none => none
  | some v =>
    if (splitSign s).1 then
      if signed ∧ v ≤ 2 ^ (bits - 1) then some (-(v : Int)) else none
    else
      if signed then (if v ≤ 2 ^ (bits - 1) - 1 then some (v : Int) else none)
      else (if v ≤ 2 ^ bits - 1 then some (v : Int) else none)

/-- Name of an integer kind as used in InvalidType errors. -/
def intName (signed : Bool) (bits : Nat) : Str :=
  (if signed then str "i" else str "u") ++ natToDec bits

/-- Derive-side handling of a unit-variant tag read from an exact leaf:
the tag must name a declared variant and that variant must be a unit one. -/
def unitVariantTag (tag : Str) : List (Str × Option Shape) → Except DErr DVal
  | [] => .error (.custom (str "unknown variant"))
  | (name, payload) :: vars =>
    if name = tag then
      match payload with
      | none => .ok (.vVariant tag none)
      | some _ => .error (.custom (str "invalid type: expected unit variant"))
    else unitVariantTag tag vars

mutual

/-- The decode dispatch, one case per requested shape, mirroring the
corresponding deserialize_* methods of FlattenedMapDeserializer (and, for
scalar leaves, the StrDeserializer parsing). -/
def decode : Shape → List (Str × Str) → Str → Except DErr DVal
  | .bool, data, pfx =>
    match getLeafValue data pfx with
    | some v =>
      if v = str "true" then .ok (.vBool true)
      else if v = str "false" then .ok (.vBool false)
      else .error (.invalidType (str "bool") v)
    | none => .error (.missingField pfx)
  | .char, data, pfx =>
    match getLeafValue data pfx with
    | some v =>
      match v with
      | [c] => .ok (.vChar c)
      | _ => .error (.invalidType (str "char") v)
    | none => .error (.missingField pfx)
  | .strS, data, pfx =>
    match getLeafValue data pfx with
    | some v => .ok (.vStr v)
    | none => .error (.missingField pfx)
  | .int sg bits, data, pfx =>
    match getLeafValue data pfx with
    | some v =>
      match parseRustInt sg bits v with
      | some n => .ok (.vInt n)
      | none => .error (.invalidType (intName sg bits) v)
    | none => .error (.missingField pfx)
  | .opt s, data, pfx =>
    if hasNonEmptyDescendants data pfx then (decode s data pfx).map .vSome
    else .ok .vNone
  | .seqOf s, data, pfx => (decodeSeq s data pfx (arrayIndices data pfx)).map .vSeq
  | .structS fields, data, pfx => (decodeFields fields data pfx).map .vStruct
  | .enumS vars, data, pfx =>
    match getLeafValue data pfx with
    | some v => unitVariantTag v vars
    | none =>
      match childFields data pfx with
      | [tag] => decodeEnumTag vars tag data (extendPfx pfx tag)
      | fields =>
        .error (.custom (str "expected enum at '" ++ pfx ++ str "', found " ++
          natToDec fields.length ++ str " fields"))

/-- SeqAccessor: decode the element shape at each collected index, in
ascending order, at the prefix extended by the encoded index token. -/
def decodeSeq (s : Shape) (data : List (Str × Str)) (pfx : Str) :
    List Nat → Except DErr (List DVal)
  | [] => .ok []
  | i :: is =>
    match decode s data (extendPfx pfx (ARR_PFX ++ natToDec i)) with
    | .ok v => (decodeSeq s data pfx is).map (v :: ·)
    | .error e => .error e

/-- MapAccessor plus the derive visitor: each declared field decodes at the
prefix extended by its name. -/
def decodeFields : List (Str × Shape) → List (Str × Str) → Str →
    Except DErr (List (Str × DVal))
  | [], _, _ => .ok []
  | (name, s) :: fields, data, pfx =>
    match decode s data (extendPfx pfx name) with
    | .ok v => (decodeFields fields data pfx).map ((name, v) :: ·)
    | .error e => .error e

/-- EnumAccessor::variant_seed plus VariantAccess: find the declared variant
named by the single child token; a unit variant is done, a payload variant
decodes its payload shape at the extended prefix. -/
def decodeEnumTag : List (Str × Option Shape) → Str → List (Str × Str) → Str →
    Except DErr DVal
  | [], _, _, _ => .error (.custom (str "unknown variant"))
  | (name, payload) :: vars, tag, data, pfx' =>
    if name = tag then
      match payload with
      | none => .ok (.vVariant tag none)
      | some s => (decode s data pfx').map (fun p => .vVariant tag (some p))
    else decodeEnumTag vars tag data pfx'

end

/-! ### Schema-free type inference (serde/deserializer.rs, infer_deserialize)

The inference chain applies to a raw text leaf when the target shape is not
statically known.  Floating-point parsing is modelled at the level of
grammar acceptance: the inferred f32/f64 result carries the raw text, since
every claim about this function concerns which branch fires, not float
arithmetic. -/

/-- Result of the inference chain (which visit_* method is called). -/
inductive InferRes where
  | rBool (b : Bool)
  | rI (bits : Nat) (n : Int)
  | rU (bits : Nat) (n : Nat)
  | rF32 (raw : Str)
  | rF64 (raw : Str)
  | rChar (c : Char)
  | rStr (s : Str)
deriving Repr, DecidableEq

/-- Acceptance of the Rust float from_str grammar: optional sign, then one of
inf / infinity / nan (case-insensitive) or a decimal mantissa (digits with an
optional point, or a point followed by digits) with an optional exponent. -/
def floatAccepts (s : Str) : Bool :=
  let s1 := match s with
    | c :: cs => if c = '+' ∨ c = '-' then cs else c :: cs
    | [] => []
  let lower := s1.map Char.toLower
  if lower = str "inf" ∨ lower = str "infinity" ∨ lower = str "nan" then true
  else mantissaExp s1
where
  digits : Str → Bool
    | [] => true
    | c :: cs => c.isDigit && digits cs
  expPart : Str → Bool
    | [] => true
    | c :: cs =>
      (c = 'e' ∨ c = 'E') &&
        (match cs with
         | d :: ds => if d = '+' ∨ d = '-' then decide (ds ≠ []) && digits ds
             else decide ((d :: ds) ≠ []) && digits (d :: ds)
         | [] => false)
  afterInt : Str → Bool
    | [] => true
    | c :: cs => if c = '.' then fracThenExp cs else expPart (c :: cs)
  fracThenExp (s : Str) : Bool :=
    let frac := s.takeWhile Char.isDigit
    let rest := s.dropWhile Char.isDigit
    (frac.all Char.isDigit) && expPart rest
  mantissaExp (s : Str) : Bool :=
    let intPart := s.takeWhile Char.isDigit
    let rest := s.dropWhile Char.isDigit
    if intPart = [] then
      match rest with
      | '.' :: cs =>
        let frac := cs.takeWhile Char.isDigit
        decide (frac ≠ []) && expPart (cs.dropWhile Char.isDigit)
      | _ => false
    else afterInt rest

/-- Rust byte length of a character in UTF-8. -/
def charUtf8Len (c : Char) : Nat :=
  if c.toNat < 0x80 then 1 else if c.toNat < 0x800 then 2
  else if c.toNat < 0x10000 then 3 else 4

/-- Rust str::len: the UTF-8 byte length. -/
def byteLen (s : Str) : Nat := (s.map charUtf8Len).sum

/-- Rust bool::from_str: exactly the texts true and false. -/
def rustBoolParse (s : Str) : Option Bool :=
  if s = str "true" then some true
  else if s = str "false" then some false
  else none

/-- FlatMapDeserializer::infer_deserialize on a Value::String leaf: try bool,
then i8..i128, then u8..u128, then f32, then f64, then a single-byte char,
else fall back to the string itself. -/
def inferText (s : Str) : InferRes :=
  match rustBoolParse s with
  | some b => .rBool b
  | none => match parseRustInt true 8 s with
  | some n => .rI 8 n
  | none => match parseRustInt true 16 s with
  | some n => .rI 16 n
  | none => match parseRustInt true 32 s with
  | some n => .rI 32 n
  | none => match parseRustInt true 64 s with
  | some n => .rI 64 n
  | none => match parseRustInt true 128 s with
  | some n => .rI 128 n
  | none => match parseRustInt false 8 s with
  | some n => .rU 8 n.toNat
  | none => match parseRustInt false 16 s with
  | some n => .rU 16 n.toNat
  | none => match parseRustInt false 32 s with
  | some n => .rU 32 n.toNat
  | none => match parseRustInt false 64 s with
  | some n => .rU 64 n.toNat
  | none => match parseRustInt false 128 s with
  | some n => .rU 128 n.toNat
  | none =>
    if floatAccepts s then .rF32 s
    else if floatAccepts s then .rF64 s
    else if byteLen s = 1 then
      match s with
      | c :: _ => .rChar c
      | [] => .rStr s
    else .rStr s

/-! ### The nested CSV writer (nested_csv/write.rs) -/

/-- Writer errors relevant to serialization (I/O errors of the underlying
csv writer are outside the model). -/
inductive WErr where
  | extraValuesComparedToHeaders (extraValues : List (Str × JValue))
deriving Repr, DecidableEq

/-- Outcome of one serialize call: the new writer state, an error result, or
a panic (the "bad flattening" branch on a composite leaf). -/
inductive WOutcome where
  | ok (st : List Str × List (List Str))
  | err (e : WErr)
  | abort (msg : Str)
deriving Repr, DecidableEq

/-- Scalar rendering of a cell: null is empty text, booleans and numbers
their canonical text, strings verbatim. -/
def cellText : JValue → Str
  | .null => []
  | .bool b => if b then str "true" else str "false"
  | .num n => if n < 0 then '-' :: natToDec n.natAbs else natToDec n.natAbs
  | .str s => s
  | .arr _ => []
  | .obj _ => []

/-- serde_json Map::remove: drop the entry for a key, returning the removed
value and the remaining map. -/
def mapRemove : List (Str × JValue) → Str → Option JValue × List (Str × JValue)
  | [], _ => (none, [])
  | (k', v) :: rest, k =>
    if k' = k then (some v, rest)
    else
      let r := mapRemove rest k
      (r.1, (k', v) :: r.2)

/-- Row construction of NestedCsvWriter::serialize: walk the headers, remove
each from the flattened item (a missing key becomes Null, rendered as empty
text), and abort on a composite leaf (the panic branch). -/
def buildRow (headers : List Str) (m : List (Str × JValue)) :
    Except Str (List Str × List (Str × JValue)) :=
  match headers with
  | [] => .ok ([], m)
  | h :: hs =>
    let r := mapRemove m h
    let v := r.1.getD .null
    if isScalar v then
      match buildRow hs r.2 with
      | .ok (row, rest) => .ok (cellText v :: row, rest)
      | .error e => .error e
    else .error (str "bad flattening")

/-- NestedCsvWriter::serialize for one item, in state (headers?, written
rows): on the first item the headers are derived from the flattened key
order and written; every item is then rendered against the headers, and any
leftover (key not in the headers) is the extra-values error, in which case
the data row is not written. -/
def wserialize (st : Option (List Str) × List (List Str)) (item : JValue) : WOutcome :=
  let m := flattened item
  let hs := st.1.getD (m.map Prod.fst)
  let written := match st.1 with
    | none => st.2 ++ [m.map Prod.fst]
    | some _ => st.2
  match buildRow hs m with
  | .error e => .abort e
  | .ok (row, leftover) =>
    if leftover.isEmpty then .ok (hs, written ++ [row])
    else .err (.extraValuesComparedToHeaders leftover)

/-! ### VecTryInsertExt (unflatten.rs lines 86-115)

This extension trait is defined in unflatten.rs with the error-returning
insertion discipline, but ArrayBuilder::get_or_create does not call it: it
calls Vec::insert directly, which panics on an out-of-range index. -/

/-- VecTryInsertExt::get_mut_or_insert_with: append exactly at the current
length, index into existing bounds, and return Err(index) past the length.
The mutable reference result is modelled as (updated vector, element). -/
def getMutOrInsertWith (xs : List JValue) (i : Nat) (mk : Unit → JValue) :
    Except Nat (List JValue × JValue) :=
  if i = xs.length then .ok (xs ++ [mk ()], mk ())
  else if i > xs.length then .error i
  else .ok (xs, xs.getD i .null)

/-- VecTryInsertExt::try_insert: only strictly in-bounds insertion. -/
def tryInsert (xs : List JValue) (i : Nat) (v : JValue) :
    Except (Nat × JValue) (List JValue) :=
  if i ≥ xs.length then .error (i, v) else .ok (xs.insertIdx i v)

/-! ### Claim-side predicates (phrased from the specification text) -/

/-- Modelled from the spec's words for the optional-presence rule: a key is a
strict child of a prefix when it extends the prefix with the separator; at
the root prefix every non-empty key is a strict child. -/
def specStrictChild (pfx k : Str) : Bool :=
  if pfx = [] then !k.isEmpty else (pfx ++ JOIN_TAG).isPrefixOf k

/-- First declared variant entry with a given name (serde derive identifies
the variant by tag name). -/
def lookupVar : List (Str × Option Shape) → Str → Option (Option Shape)
  | [], _ => none
  | (name, payload) :: vars, tag =>
    if name = tag then some payload else lookupVar vars tag

-- TEMP tests

/-! ### Claim C2: array/object conflicts during unflatten -/

/-- Claim C2, counterexample to the path-identification part: the two records
with offending prefixes "a" and "b" produce the very same type-conflict
error value, a constant message with no path in it, so the error cannot
identify the offending path as the claim states. -/
theorem c2_counterexample :
    str "a" ≠ str "b" ∧
    unflattened (.obj [(str "a__idx-0", .str (str "x")), (str "a__k", .str (str "y"))]) =
      .err (.other (str "found array, expected object or null")) ∧
    unflattened (.obj [(str "b__idx-0", .str (str "x")), (str "b__k", .str (str "y"))]) =
      .err (.other (str "found array, expected object or null")) := by
  refine ⟨by decide, ?_, ?_⟩ <;>
    simp [unflattened, unflattenedGo, parsePath, splitTag, splitTagAux, Segment.fromStr,
      stripPfx, parseUsize, parseDigits, parseDigitsAux, dropPlus, digitVal, applyPath,
      applyIdx, applyField, mapGet, mapInsert, isScalar, str]

/-- Claim C2 as amended: whenever a path segment requires an array where the
node already built is an object (or the reverse, or the node is any scalar),
apply fails with a type-conflict error naming the found and the expected
kinds, but the error does not carry the offending path; in particular the
record with keys a__idx-0 and a__k makes unflatten fail. -/
theorem c2_amended :
    (∀ (kvs : List (Str × JValue)) (i : Nat) (rest : List Segment) (leaf : JValue),
      applyPath (.obj kvs) (.idx i :: rest) leaf =
        .err (str "found object, expected array or null")) ∧
    (∀ (xs : List JValue) (k : Str) (rest : List Segment) (leaf : JValue),
      applyPath (.arr xs) (.field k :: rest) leaf =
        .err (str "found array, expected object or null")) ∧
    (∀ (s : Str) (i : Nat) (rest : List Segment) (leaf : JValue),
      applyPath (.str s) (.idx i :: rest) leaf =
        .err (str "found string, expected array or null") ∧
      applyPath (.str s) (.field (str "k") :: rest) leaf =
        .err (str "found string, expected object or null")) ∧
    unflattened (.obj [(str "a__idx-0", .str (str "x")), (str "a__k", .str (str "y"))]) =
      .err (.other (str "found array, expected object or null")) := by
  refine ⟨fun kvs i rest leaf => by simp [applyPath],
    fun xs k rest leaf => by simp [applyPath],
    fun s i rest leaf => ⟨by simp [applyPath], by simp [applyPath]⟩, ?_⟩
  simp [unflattened, unflattenedGo, parsePath, splitTag, splitTagAux, Segment.fromStr,
    stripPfx, parseUsize, parseDigits, parseDigitsAux, dropPlus, digitVal, applyPath,
    applyIdx, applyField, mapGet, mapInsert, isScalar, str]

/-! ### Claim C3: string decoding is the identity on the raw text -/

/-- Claim C3, counterexample: at the empty (root) prefix the decoder never
sees a leaf, so a record containing the empty key decodes a string target to
a missing-field error, not to the stored text as the claim universally
states. -/
theorem c3_counterexample :
    decode .strS [([], str "hello")] [] = .error (.missingField []) ∧
    decode .strS [([], str "hello")] [] ≠ .ok (.vStr (str "hello")) := by
  constructor
  · simp [decode, getLeafValue]
  · simp [decode, getLeafValue]

/-- Claim C3 as amended: for every non-empty key k stored with text v,
decoding a string target at prefix k yields exactly v (in particular the
text 00123 stays the literal string), while decoding the same text 00123 at
a signed 64-bit integer target yields the number 123. -/
theorem c3_amended :
    (∀ (data : List (Str × Str)) (k v : Str), k ≠ [] → assocGet data k = some v →
      decode .strS data k = .ok (.vStr v)) ∧
    (∀ (data : List (Str × Str)) (k : Str), k ≠ [] →
      assocGet data k = some (str "00123") →
      decode (.int true 64) data k = .ok (.vInt 123)) := by
  constructor
  · intro data k v hk hv
    have hleaf : getLeafValue data k = some v := by simp [getLeafValue, hk, hv]
    simp [decode, hleaf]
  · intro data k hk hv
    have hleaf : getLeafValue data k = some (str "00123") := by
      simp [getLeafValue, hk, hv]
    simp only [decode, hleaf]
    rfl

/-- Witness for c3_amended at a concrete record. -/
theorem c3_amended_witness :
    decode .strS [(str "id", str "00123")] (str "id") = .ok (.vStr (str "00123")) ∧
    decode (.int true 64) [(str "id", str "00123")] (str "id") = .ok (.vInt 123) :=
  ⟨c3_amended.1 [(str "id", str "00123")] (str "id") (str "00123") (by decide) (by decide),
   c3_amended.2 [(str "id", str "00123")] (str "id") (by decide) (by decide)⟩

/-! ### Claim C5: out-of-range array insertion during unflatten -/

/-- Claim C5: the error-returning helper get_mut_or_insert_with does reject a
past-the-length index with Err(index), exactly as the spec requires; but the
array builder of the unflatten engine does not call it, and on the record
with key a__idx-1 the engine reaches Vec::insert with index 1 on an empty
vector, which panics (process abort), instead of returning an error result. -/
theorem c5_gap_insertion :
    (∀ (xs : List JValue) (i : Nat) (mk : Unit → JValue), xs.length < i →
      getMutOrInsertWith xs i mk = .error i) ∧
    unflattened (.obj [(str "a__idx-1", .str (str "x"))]) =
      .abort (str "insertion index (is 1) should be <= len (is 0)") := by
  constructor
  · intro xs i mk h
    rw [getMutOrInsertWith, if_neg (by omega), if_pos (by omega)]
  · simp [unflattened, unflattenedGo, parsePath, splitTag, splitTagAux, Segment.fromStr,
      stripPfx, parseUsize, parseDigits, parseDigitsAux, dropPlus, digitVal, applyPath,
      applyIdx, applyField, mapGet, mapInsert, isScalar, natToDec, natToDecAux, digitChar,
      str]

/-- Witness for c5_gap_insertion at the failing input. -/
theorem c5_gap_insertion_witness :
    getMutOrInsertWith [] 1 (fun _ => JValue.null) = .error 1 :=
  c5_gap_insertion.1 [] 1 (fun _ => JValue.null) (by decide)

/-! ### Claim C4: optional absence -/

theorem isPrefixOf_append (a : Str) :
    ∀ (b k : Str), ((a ++ b).isPrefixOf k) = (a.isPrefixOf k && b.isPrefixOf (k.drop a.length)) := by
  induction a with
  | nil => intro b k; simp
  | cons x a' ih =>
    intro b k
    cases k with
    | nil => simp [List.isPrefixOf]
    | cons y k' =>
      simp only [List.cons_append, List.isPrefixOf, List.length_cons, List.drop_succ_cons]
      rw [show a'.append b = a' ++ b from rfl, ih b k', Bool.and_assoc]

theorem matches_eq_spec (pfx k : Str) :
    (decide (pfx = []) || decide (k = pfx) ||
      (pfx.isPrefixOf k && JOIN_TAG.isPrefixOf (k.drop pfx.length))) =
    (decide (k = pfx) || specStrictChild pfx k) := by
  by_cases hp : pfx = []
  · subst hp
    cases k <;> simp [specStrictChild]
  · simp only [specStrictChild, if_neg hp, decide_eq_true_eq]
    rw [isPrefixOf_append]
    simp [hp]

theorem hasNED_eq_spec (data : List (Str × Str)) (pfx : Str) :
    hasNonEmptyDescendants data pfx =
      data.any (fun kv => (decide (kv.1 = pfx) || specStrictChild pfx kv.1) && !kv.2.isEmpty) := by
  unfold hasNonEmptyDescendants
  congr 1
  funext kv
  rw [matches_eq_spec]

theorem hasNED_false_iff (data : List (Str × Str)) (pfx : Str) :
    hasNonEmptyDescendants data pfx = false ↔
      ∀ kv ∈ data, kv.1 = pfx ∨ specStrictChild pfx kv.1 = true → kv.2 = [] := by
  rw [hasNED_eq_spec]
  rw [show (data.any fun kv =>
      (decide (kv.1 = pfx) || specStrictChild pfx kv.1) && !kv.2.isEmpty) = false ↔
      ¬(data.any fun kv =>
        (decide (kv.1 = pfx) || specStrictChild pfx kv.1) && !kv.2.isEmpty) = true from
    by simp]
  rw [List.any_eq_true]
  constructor
  · intro h kv hkv hor
    by_contra hne
    apply h
    refine ⟨kv, hkv, ?_⟩
    have h2 : kv.2.isEmpty = false := by
      cases hk2 : kv.2 with
      | nil => exact absurd hk2 hne
      | cons a l => rfl
    rcases hor with hl | hr
    · simp [hl, h2]
    · simp [hr, h2]
  · rintro h ⟨kv, hkv, hp⟩
    rw [Bool.and_eq_true] at hp
    obtain ⟨h1, h2⟩ := hp
    have hor : kv.1 = pfx ∨ specStrictChild pfx kv.1 = true := by
      rcases (Bool.or_eq_true _ _).mp h1 with ha | hb
      · exact Or.inl (of_decide_eq_true ha)
      · exact Or.inr hb
    rw [h kv hkv hor] at h2
    simp at h2

/-- Claim C4: decoding an optional shape yields absent exactly when every
entry whose key equals the prefix or is a strict child of it has empty text
(including when no such entry exists); otherwise it decodes the wrapped
shape at the same prefix and wraps it, and an inner empty-text scalar is
preserved as the empty string, as the concrete record with an empty amount
and a non-empty currency shows. -/
theorem c4_option_absence :
    (∀ (data : List (Str × Str)) (pfx : Str) (s : Shape),
      (decode (.opt s) data pfx = .ok .vNone ↔
        ∀ kv ∈ data, kv.1 = pfx ∨ specStrictChild pfx kv.1 = true → kv.2 = []) ∧
      ((¬ ∀ kv ∈ data, kv.1 = pfx ∨ specStrictChild pfx kv.1 = true → kv.2 = []) →
        decode (.opt s) data pfx = (decode s data pfx).map .vSome)) ∧
    decode (.opt (.structS [(str "amount", .strS), (str "currency", .strS)]))
      [(str "name", str "Gadget"), (str "price__amount", str ""),
       (str "price__currency", str "USD")] (str "price") =
    .ok (.vSome (.vStruct [(str "amount", .vStr (str "")),
      (str "currency", .vStr (str "USD"))])) := by
  constructor
  · intro data pfx s
    constructor
    · by_cases h : hasNonEmptyDescendants data pfx
      · rw [show decode (.opt s) data pfx = (decode s data pfx).map .vSome from by
          simp [decode, h]]
        constructor
        · intro habs
          exfalso
          cases hd : decode s data pfx with
          | ok w => rw [hd] at habs; simp [Except.map] at habs
          | error e => rw [hd] at habs; simp [Except.map] at habs
        · intro hall
          exact absurd ((hasNED_false_iff data pfx).mpr hall) (by simp [h])
      · rw [show decode (.opt s) data pfx = .ok .vNone from by
          simp [decode, h]]
        simp only [true_iff]
        exact (hasNED_false_iff data pfx).mp (by simpa using h)
    · intro hne
      have h : hasNonEmptyDescendants data pfx = true := by
        by_contra hf
        exact hne ((hasNED_false_iff data pfx).mp (by simpa using hf))
      simp [decode, h]
  · have hamt : decode .strS
        [(str "name", str "Gadget"), (str "price__amount", str ""),
         (str "price__currency", str "USD")] (str "price__amount") =
        .ok (.vStr (str "")) := by
      simp [decode, getLeafValue, assocGet, str]
    have hcur : decode .strS
        [(str "name", str "Gadget"), (str "price__amount", str ""),
         (str "price__currency", str "USD")] (str "price__currency") =
        .ok (.vStr (str "USD")) := by
      simp [decode, getLeafValue, assocGet, str]
    have hstruct : decode (.structS [(str "amount", .strS), (str "currency", .strS)])
        [(str "name", str "Gadget"), (str "price__amount", str ""),
         (str "price__currency", str "USD")] (str "price") =
        .ok (.vStruct [(str "amount", .vStr (str "")),
          (str "currency", .vStr (str "USD"))]) := by
      rw [show decode (.structS [(str "amount", .strS), (str "currency", .strS)])
          [(str "name", str "Gadget"), (str "price__amount", str ""),
           (str "price__currency", str "USD")] (str "price") =
        (decodeFields [(str "amount", .strS), (str "currency", .strS)]
          [(str "name", str "Gadget"), (str "price__amount", str ""),
           (str "price__currency", str "USD")] (str "price")).map .vStruct from by
        simp [decode]]
      rw [decodeFields]
      rw [show extendPfx (str "price") (str "amount") = str "price__amount" from by decide]
      rw [hamt]
      dsimp only
      rw [decodeFields]
      rw [show extendPfx (str "price") (str "currency") = str "price__currency" from by
        decide]
      rw [hcur]
      dsimp only
      rw [decodeFields]
      rfl
    have hned : hasNonEmptyDescendants
        [(str "name", str "Gadget"), (str "price__amount", str ""),
         (str "price__currency", str "USD")] (str "price") = true := by decide
    rw [show decode (.opt (.structS [(str "amount", .strS), (str "currency", .strS)]))
        [(str "name", str "Gadget"), (str "price__amount", str ""),
         (str "price__currency", str "USD")] (str "price") =
      (decode (.structS [(str "amount", .strS), (str "currency", .strS)])
        [(str "name", str "Gadget"), (str "price__amount", str ""),
         (str "price__currency", str "USD")] (str "price")).map .vSome from by
      simp [decode, hned]]
    rw [hstruct]
    rfl

/-- Witness for c4_option_absence: the present branch at a concrete record. -/
theorem c4_option_absence_witness :
    decode (.opt .strS)
      [(str "name", str "Gadget"), (str "price__amount", str ""),
       (str "price__currency", str "USD")] (str "price") =
    (decode .strS
      [(str "name", str "Gadget"), (str "price__amount", str ""),
       (str "price__currency", str "USD")] (str "price")).map .vSome :=
  (c4_option_absence.1
    [(str "name", str "Gadget"), (str "price__amount", str ""),
     (str "price__currency", str "USD")] (str "price") .strS).2 (by decide)

/-! ### Claim C6: enum decoding -/

theorem lookupVar_decodeEnumTag_unit :
    ∀ (vars : List (Str × Option Shape)) (tag : Str) (data : List (Str × Str)) (pfx' : Str),
      lookupVar vars tag = some none →
      decodeEnumTag vars tag data pfx' = .ok (.vVariant tag none)
  | [], tag, data, pfx' => by intro h; simp [lookupVar] at h
  | (name, payload) :: vars, tag, data, pfx' => by
    intro h
    rw [lookupVar] at h
    by_cases he : name = tag
    · rw [if_pos he] at h
      cases payload with
      | none => simp [decodeEnumTag, he]
      | some s => simp at h
    · rw [if_neg he] at h
      rw [decodeEnumTag.eq_def]
      simp only [if_neg he]
      exact lookupVar_decodeEnumTag_unit vars tag data pfx' h

theorem lookupVar_decodeEnumTag_payload :
    ∀ (vars : List (Str × Option Shape)) (tag : Str) (data : List (Str × Str)) (pfx' : Str)
      (s : Shape),
      lookupVar vars tag = some (some s) →
      decodeEnumTag vars tag data pfx' =
        (decode s data pfx').map (fun p => .vVariant tag (some p))
  | [], tag, data, pfx', s => by intro h; simp [lookupVar] at h
  | (name, payload) :: vars, tag, data, pfx', s => by
    intro h
    rw [lookupVar] at h
    by_cases he : name = tag
    · rw [if_pos he] at h
      cases payload with
      | none => simp at h
      | some s' =>
        simp only [Option.some.injEq] at h
        subst h
        simp [decodeEnumTag, he]
    · rw [if_neg he] at h
      rw [decodeEnumTag.eq_def]
      simp only [if_neg he]
      exact lookupVar_decodeEnumTag_payload vars tag data pfx' s h

theorem lookupVar_unitVariantTag :
    ∀ (vars : List (Str × Option Shape)) (tag : Str),
      lookupVar vars tag = some none →
      unitVariantTag tag vars = .ok (.vVariant tag none)
  | [], tag => by intro h; simp [lookupVar] at h
  | (name, payload) :: vars, tag => by
    intro h
    rw [lookupVar] at h
    by_cases he : name = tag
    · rw [if_pos he] at h
      cases payload with
      | none => simp [unitVariantTag, he]
      | some s => simp at h
    · rw [if_neg he] at h
      simp only [unitVariantTag]
      rw [if_neg he]
      exact lookupVar_unitVariantTag vars tag h

/-- Claim C6, counterexample: at the root (empty) prefix an exact leaf under
the empty key is never treated as a leaf, so the record with the empty key
and text Red fails with the ambiguous-enum error instead of decoding the
unit variant Red as the claim universally states. -/
theorem c6_counterexample :
    decode (.enumS [(str "Red", none)]) [([], str "Red")] [] =
      .error (.custom (str "expected enum at '', found 0 fields")) ∧
    decode (.enumS [(str "Red", none)]) [([], str "Red")] [] ≠
      .ok (.vVariant (str "Red") none) := by
  have h : decode (.enumS [(str "Red", none)]) [([], str "Red")] [] =
      .error (.custom (str "expected enum at '', found 0 fields")) := by
    simp [decode, getLeafValue, assocGet, childFields, childFields.go, splitTag,
      splitTagAux, str, natToDec, natToDecAux, digitChar]
  exact ⟨h, by rw [h]; simp⟩

/-- Claim C6 as amended: at a non-empty prefix an exact leaf is the tag of a
unit variant; with no exact leaf and exactly one direct child token, that
token is the tag and a payload variant decodes its payload at the extended
sub-prefix (a unit variant needs no payload); with no exact leaf and a
number of child tokens different from one, decoding fails with the
ambiguous-enum error whose message names the prefix. -/
theorem c6_enum_decoding :
    (∀ (data : List (Str × Str)) (p v : Str) (vars : List (Str × Option Shape)),
      p ≠ [] → assocGet data p = some v → lookupVar vars v = some none →
      decode (.enumS vars) data p = .ok (.vVariant v none)) ∧
    (∀ (data : List (Str × Str)) (p tag : Str) (vars : List (Str × Option Shape)) (s : Shape),
      getLeafValue data p = none → childFields data p = [tag] →
      lookupVar vars tag = some (some s) →
      decode (.enumS vars) data p =
        (decode s data (extendPfx p tag)).map (fun pv => .vVariant tag (some pv))) ∧
    (∀ (data : List (Str × Str)) (p tag : Str) (vars : List (Str × Option Shape)),
      getLeafValue data p = none → childFields data p = [tag] →
      lookupVar vars tag = some none →
      decode (.enumS vars) data p = .ok (.vVariant tag none)) ∧
    (∀ (data : List (Str × Str)) (p : Str) (vars : List (Str × Option Shape)) (fs : List Str),
      getLeafValue data p = none → childFields data p = fs → fs.length ≠ 1 →
      decode (.enumS vars) data p =
        .error (.custom (str "expected enum at '" ++ p ++ str "', found " ++
          natToDec fs.length ++ str " fields"))) := by
  refine ⟨?_, ?_, ?_, ?_⟩
  · intro data p v vars hp hleaf hvar
    have h : getLeafValue data p = some v := by simp [getLeafValue, hp, hleaf]
    simp [decode, h, lookupVar_unitVariantTag vars v hvar]
  · intro data p tag vars s hleaf hcf hvar
    simp [decode, hleaf, hcf, lookupVar_decodeEnumTag_payload vars tag data _ s hvar]
  · intro data p tag vars hleaf hcf hvar
    simp [decode, hleaf, hcf, lookupVar_decodeEnumTag_unit vars tag data _ hvar]
  · intro data p vars fs hleaf hcf hlen
    match fs, hlen with
    | [], _ => simp [decode, hleaf, hcf]
    | f1 :: f2 :: fs, _ => simp [decode, hleaf, hcf]

/-- Witness for c6_enum_decoding: unit-variant leaf, payload child, and
ambiguous cases at concrete records. -/
theorem c6_enum_decoding_witness :
    decode (.enumS [(str "Red", none), (str "Rgb", some .strS)])
      [(str "color", str "Red")] (str "color") = .ok (.vVariant (str "Red") none) ∧
    decode (.enumS [(str "Red", none), (str "Rgb", some .strS)])
      [(str "color__Rgb", str "ff0000")] (str "color") =
      (decode .strS [(str "color__Rgb", str "ff0000")]
        (extendPfx (str "color") (str "Rgb"))).map
          (fun pv => .vVariant (str "Rgb") (some pv)) ∧
    decode (.enumS [(str "Red", none)]) [(str "other", str "1")] (str "color") =
      .error (.custom (str "expected enum at '" ++ str "color" ++ str "', found " ++
        natToDec (List.length ([] : List Str)) ++ str " fields")) :=
  ⟨c6_enum_decoding.1 [(str "color", str "Red")] (str "color") (str "Red")
      [(str "Red", none), (str "Rgb", some .strS)] (by decide) (by decide)
      (by simp [lookupVar, str]),
   (c6_enum_decoding.2.1 [(str "color__Rgb", str "ff0000")] (str "color") (str "Rgb")
      [(str "Red", none), (str "Rgb", some .strS)] .strS (by decide)
      (by simp [childFields, childFields.go, splitTag, splitTagAux, str, List.isPrefixOf])
      (by simp [lookupVar, str])),
   c6_enum_decoding.2.2.2 [(str "other", str "1")] (str "color")
      [(str "Red", none)] [] (by decide)
      (by simp [childFields, childFields.go, splitTag, splitTagAux, str, List.isPrefixOf])
      (by simp)⟩

/-! ### Claim C9: schema-free type inference priority -/

theorem parseRustInt_mono (sg : Bool) (b1 b2 : Nat) (s : Str) (n : Int) (hb : b1 ≤ b2)
    (h : parseRustInt sg b1 s = some n) : parseRustInt sg b2 s = some n := by
  unfold parseRustInt at h ⊢
  cases hd : parseDigits (splitSign s).2 with
  | none => rw [hd] at h; simp at h
  | some v =>
    rw [hd] at h
    dsimp only at h ⊢
    have hpow : 2 ^ (b1 - 1) ≤ 2 ^ (b2 - 1) := Nat.pow_le_pow_right (by norm_num) (by omega)
    have hpow2 : 2 ^ b1 ≤ 2 ^ b2 := Nat.pow_le_pow_right (by norm_num) hb
    split_ifs at h ⊢ <;> simp_all <;> omega

theorem parseRustInt_none_mono (sg : Bool) (b1 b2 : Nat) (s : Str) (hb : b1 ≤ b2)
    (h : parseRustInt sg b2 s = none) : parseRustInt sg b1 s = none := by
  cases hp : parseRustInt sg b1 s with
  | none => rfl
  | some n => rw [parseRustInt_mono sg b1 b2 s n hb hp] at h; exact absurd h (by simp)

theorem parseRustInt_unsigned_to_i128 (b : Nat) (s : Str) (n : Int) (hb : b ≤ 64)
    (h : parseRustInt false b s = some n) : parseRustInt true 128 s = some n := by
  unfold parseRustInt at h ⊢
  cases hd : parseDigits (splitSign s).2 with
  | none => rw [hd] at h; simp at h
  | some v =>
    rw [hd] at h
    dsimp only at h ⊢
    have hpow2 : 2 ^ b ≤ 2 ^ 64 := Nat.pow_le_pow_right (by norm_num) hb
    have h64 : (2 : Nat) ^ 64 - 1 ≤ 2 ^ 127 - 1 := by norm_num
    split_ifs at h ⊢ <;> simp_all
    omega

theorem parseRustInt_true_text (sg : Bool) (bits : Nat) :
    parseRustInt sg bits (str "true") = none := by
  have h1 : splitSign (str "true") = (false, str "true") := by decide
  have h2 : parseDigits (str "true") = none := by decide
  rw [parseRustInt, h1]
  simp [h2]

theorem parseRustInt_false_text (sg : Bool) (bits : Nat) :
    parseRustInt sg bits (str "false") = none := by
  have h1 : splitSign (str "false") = (false, str "false") := by decide
  have h2 : parseDigits (str "false") = none := by decide
  rw [parseRustInt, h1]
  simp [h2]

theorem intSome_boolNone (sg : Bool) (bits : Nat) (s : Str) (n : Int)
    (h : parseRustInt sg bits s = some n) : rustBoolParse s = none := by
  rw [rustBoolParse]
  split_ifs with h1 h2
  · subst h1; rw [parseRustInt_true_text] at h; exact absurd h (by simp)
  · subst h2; rw [parseRustInt_false_text] at h; exact absurd h (by simp)
  · rfl

theorem floatAccepts_true_text : floatAccepts (str "true") = false := by decide

theorem floatAccepts_false_text : floatAccepts (str "false") = false := by decide

/-- Claim C9, counterexample to the single-character clause: the text
consisting of the single (two-byte) character é fails boolean, integer and
float parsing, yet it is inferred as a string rather than as the character,
because the code checks the byte length of the text, not its character
count. -/
theorem c9_counterexample :
    (str "é").length = 1 ∧
    inferText (str "é") = .rStr (str "é") ∧
    inferText (str "é") ≠ .rChar 'é' := by
  refine ⟨by decide, by decide, by decide⟩

/-- Claim C9 as amended: the inference chain tries, in order, boolean, signed
integers narrowest to widest, unsigned integers narrowest to widest,
floating point, then a single-byte character, and falls back to the string
only when all of these fail; the first success determines the result. -/
theorem c9_inference_order :
    (∀ (s : Str) (b : Bool), rustBoolParse s = some b → inferText s = .rBool b) ∧
    (∀ (s : Str) (n : Int), parseRustInt true 8 s = some n → inferText s = .rI 8 n) ∧
    (∀ (s : Str) (n : Int), parseRustInt true 8 s = none →
      parseRustInt true 16 s = some n → inferText s = .rI 16 n) ∧
    (∀ (s : Str) (n : Int), parseRustInt true 16 s = none →
      parseRustInt true 32 s = some n → inferText s = .rI 32 n) ∧
    (∀ (s : Str) (n : Int), parseRustInt true 32 s = none →
      parseRustInt true 64 s = some n → inferText s = .rI 64 n) ∧
    (∀ (s : Str) (n : Int), parseRustInt true 64 s = none →
      parseRustInt true 128 s = some n → inferText s = .rI 128 n) ∧
    (∀ (s : Str) (n : Int), parseRustInt true 128 s = none →
      parseRustInt false 128 s = some n → inferText s = .rU 128 n.toNat) ∧
    (∀ (s : Str), parseRustInt true 128 s = none → parseRustInt false 128 s = none →
      floatAccepts s = true → inferText s = .rF32 s) ∧
    (∀ (c : Char), parseRustInt true 128 [c] = none → parseRustInt false 128 [c] = none →
      floatAccepts [c] = false → charUtf8Len c = 1 → inferText [c] = .rChar c) ∧
    (∀ (s : Str), rustBoolParse s = none → parseRustInt true 128 s = none →
      parseRustInt false 128 s = none → floatAccepts s = false → byteLen s ≠ 1 →
      inferText s = .rStr s) := by
  have nm : ∀ (sg : Bool) (b : Nat) (s : Str), b ≤ 128 → parseRustInt sg 128 s = none →
      parseRustInt sg b s = none := fun sg b s hb h => parseRustInt_none_mono sg b 128 s hb h
  refine ⟨?_, ?_, ?_, ?_, ?_, ?_, ?_, ?_, ?_, ?_⟩
  · intro s b h
    simp [inferText, h]
  · intro s n h
    simp [inferText, intSome_boolNone _ _ _ _ h, h]
  · intro s n h8 h
    simp [inferText, intSome_boolNone _ _ _ _ h, h8, h]
  · intro s n h16 h
    have h8 := parseRustInt_none_mono true 8 16 s (by norm_num) h16
    simp [inferText, intSome_boolNone _ _ _ _ h, h8, h16, h]
  · intro s n h32 h
    have h16 := parseRustInt_none_mono true 16 32 s (by norm_num) h32
    have h8 := parseRustInt_none_mono true 8 16 s (by norm_num) h16
    simp [inferText, intSome_boolNone _ _ _ _ h, h8, h16, h32, h]
  · intro s n h64 h
    have h32 := parseRustInt_none_mono true 32 64 s (by norm_num) h64
    have h16 := parseRustInt_none_mono true 16 32 s (by norm_num) h32
    have h8 := parseRustInt_none_mono true 8 16 s (by norm_num) h16
    simp [inferText, intSome_boolNone _ _ _ _ h, h8, h16, h32, h64, h]
  · intro s n h128 h
    have hu64 : parseRustInt false 64 s = none := by
      cases hp : parseRustInt false 64 s with
      | none => rfl
      | some m =>
        rw [parseRustInt_unsigned_to_i128 64 s m (by norm_num) hp] at h128
        exact absurd h128 (by simp)
    have hu32 := parseRustInt_none_mono false 32 64 s (by norm_num) hu64
    have hu16 := parseRustInt_none_mono false 16 32 s (by norm_num) hu32
    have hu8 := parseRustInt_none_mono false 8 16 s (by norm_num) hu16
    have h64 := nm true 64 s (by norm_num) h128
    have h32 := nm true 32 s (by norm_num) h128
    have h16 := nm true 16 s (by norm_num) h128
    have h8 := nm true 8 s (by norm_num) h128
    simp [inferText, intSome_boolNone _ _ _ _ h, h8, h16, h32, h64, h128,
      hu8, hu16, hu32, hu64, h]
  · intro s h128 hu128 hfl
    have hb : rustBoolParse s = none := by
      rw [rustBoolParse]
      split_ifs with h1 h2
      · subst h1; rw [floatAccepts_true_text] at hfl; exact absurd hfl (by simp)
      · subst h2; rw [floatAccepts_false_text] at hfl; exact absurd hfl (by simp)
      · rfl
    have h64 := nm true 64 s (by norm_num) h128
    have h32 := nm true 32 s (by norm_num) h128
    have h16 := nm true 16 s (by norm_num) h128
    have h8 := nm true 8 s (by norm_num) h128
    have hu64 := nm false 64 s (by norm_num) hu128
    have hu32 := nm false 32 s (by norm_num) hu128
    have hu16 := nm false 16 s (by norm_num) hu128
    have hu8 := nm false 8 s (by norm_num) hu128
    simp [inferText, hb, h8, h16, h32, h64, h128, hu8, hu16, hu32, hu64, hu128, hfl]
  · intro c h128 hu128 hfl hc
    have hb : rustBoolParse [c] = none := by
      rw [rustBoolParse]
      rw [if_neg (by simp [str]), if_neg (by simp [str])]
    have h64 := nm true 64 [c] (by norm_num) h128
    have h32 := nm true 32 [c] (by norm_num) h128
    have h16 := nm true 16 [c] (by norm_num) h128
    have h8 := nm true 8 [c] (by norm_num) h128
    have hu64 := nm false 64 [c] (by norm_num) hu128
    have hu32 := nm false 32 [c] (by norm_num) hu128
    have hu16 := nm false 16 [c] (by norm_num) hu128
    have hu8 := nm false 8 [c] (by norm_num) hu128
    have hlen : byteLen [c] = 1 := by simp [byteLen, hc]
    simp [inferText, hb, h8, h16, h32, h64, h128, hu8, hu16, hu32, hu64, hu128, hfl, hlen]
  · intro s hb h128 hu128 hfl hlen
    have h64 := nm true 64 s (by norm_num) h128
    have h32 := nm true 32 s (by norm_num) h128
    have h16 := nm true 16 s (by norm_num) h128
    have h8 := nm true 8 s (by norm_num) h128
    have hu64 := nm false 64 s (by norm_num) hu128
    have hu32 := nm false 32 s (by norm_num) hu128
    have hu16 := nm false 16 s (by norm_num) hu128
    have hu8 := nm false 8 s (by norm_num) hu128
    cases s with
    | nil =>
      simp [inferText, hb, h8, h16, h32, h64, h128, hu8, hu16, hu32, hu64, hu128, hfl]
    | cons c cs =>
      simp [inferText, hb, h8, h16, h32, h64, h128, hu8, hu16, hu32, hu64, hu128, hfl, hlen]

/-! ### Claims C7 and C10: the nested CSV writer -/

/-- Remove every header key from a map, as the row-building loop does. -/
def removeAll (m : List (Str × JValue)) (hs : List Str) : List (Str × JValue) :=
  hs.foldl (fun m h => (mapRemove m h).2) m

theorem mapRemove_fst : ∀ (m : List (Str × JValue)) (k : Str), (mapRemove m k).1 = mapGet m k
  | [], _ => rfl
  | (k', v) :: rest, k => by
    by_cases he : k' = k
    · simp [mapRemove, mapGet, he]
    · simp [mapRemove, mapGet, he, mapRemove_fst rest k]

theorem mapRemove_get_ne :
    ∀ (m : List (Str × JValue)) (k k' : Str), k' ≠ k →
      mapGet (mapRemove m k).2 k' = mapGet m k'
  | [], _, _ => by intro _; rfl
  | (k0, v) :: rest, k, k' => by
    intro hne
    by_cases he : k0 = k
    · rw [mapRemove, if_pos he]
      show mapGet rest k' = mapGet ((k0, v) :: rest) k'
      have hne0 : k0 ≠ k' := fun h => hne (h ▸ he)
      rw [mapGet, if_neg hne0]
    · rw [mapRemove, if_neg he]
      show mapGet ((k0, v) :: (mapRemove rest k).2) k' = mapGet ((k0, v) :: rest) k'
      by_cases he2 : k0 = k'
      · rw [mapGet, if_pos he2, mapGet, if_pos he2]
      · rw [mapGet, if_neg he2, mapGet, if_neg he2]
        exact mapRemove_get_ne rest k k' hne

theorem mapRemove_mem :
    ∀ (m : List (Str × JValue)) (k : Str) (kv : Str × JValue),
      kv ∈ (mapRemove m k).2 → kv ∈ m
  | [], _, kv => by intro h; simp [mapRemove] at h
  | (k0, v) :: rest, k, kv => by
    intro h
    by_cases he : k0 = k
    · simp only [mapRemove, if_pos he] at h
      exact List.mem_cons_of_mem _ h
    · simp only [mapRemove, if_neg he] at h
      rcases List.mem_cons.mp h with h1 | h2
      · exact h1 ▸ List.mem_cons_self _ _
      · exact List.mem_cons_of_mem _ (mapRemove_mem rest k kv h2)

theorem mapGet_mem : ∀ (m : List (Str × JValue)) (k : Str) (v : JValue),
    mapGet m k = some v → (k, v) ∈ m
  | [], _, _ => by intro h; simp [mapGet] at h
  | (k0, v0) :: rest, k, v => by
    intro h
    by_cases he : k0 = k
    · rw [mapGet, if_pos he] at h
      cases h
      subst he
      exact List.mem_cons_self _ _
    · rw [mapGet, if_neg he] at h
      exact List.mem_cons_of_mem _ (mapGet_mem rest k v h)

/-- Row construction, characterized: with scalar values and distinct headers
it renders each header cell by lookup (null for a missing key) and leaves
exactly the non-header entries. -/
theorem buildRow_spec :
    ∀ (hs : List Str) (m : List (Str × JValue)),
      (∀ kv ∈ m, isScalar kv.2 = true) → hs.Nodup →
      buildRow hs m =
        .ok (hs.map (fun h => cellText ((mapGet m h).getD .null)), removeAll m hs)
  | [], m => by intro _ _; simp [buildRow, removeAll]
  | h :: hs, m => by
    intro hsc hnd
    have hv : isScalar ((mapRemove m h).1.getD .null) = true := by
      rw [mapRemove_fst]
      cases hg : mapGet m h with
      | none => rfl
      | some w => exact hsc (h, w) (mapGet_mem m h w hg)
    have hrec := buildRow_spec hs (mapRemove m h).2
      (fun kv hkv => hsc kv (mapRemove_mem m h kv hkv)) (List.Nodup.of_cons hnd)
    rw [buildRow, hrec, hv]
    simp only [if_true]
    have hmap : hs.map (fun h' => cellText ((mapGet (mapRemove m h).2 h').getD .null)) =
        hs.map (fun h' => cellText ((mapGet m h').getD .null)) := by
      apply List.map_congr_left
      intro a ha
      rw [mapRemove_get_ne m h a (by
        intro he
        exact (List.nodup_cons.mp hnd).1 (he ▸ ha))]
    rw [hmap, mapRemove_fst]
    rfl

/-- Keys of a map, and distinctness of keys. -/
def mapKeys (m : List (Str × JValue)) : List Str := m.map Prod.fst

theorem mapRemove_sublist :
    ∀ (m : List (Str × JValue)) (k : Str), (mapRemove m k).2.Sublist m
  | [], _ => List.Sublist.refl _
  | (k0, v) :: rest, k => by
    by_cases he : k0 = k
    · simp only [mapRemove, if_pos he]
      exact List.sublist_cons_self _ _
    · simp only [mapRemove, if_neg he]
      exact List.Sublist.cons₂ _ (mapRemove_sublist rest k)

theorem mapRemove_filter :
    ∀ (m : List (Str × JValue)) (h : Str) (hs : List Str), (mapKeys m).Nodup →
      (mapRemove m h).2.filter (fun kv => decide (kv.1 ∉ hs)) =
        m.filter (fun kv => decide (kv.1 ∉ h :: hs))
  | [], h, hs => by intro _; rfl
  | (k0, v) :: rest, h, hs => by
    intro hnd
    rw [mapKeys, List.map_cons, List.nodup_cons] at hnd
    obtain ⟨hk0, hrest⟩ := hnd
    by_cases he : k0 = h
    · subst he
      rw [mapRemove, if_pos rfl]
      show rest.filter (fun kv => decide (kv.1 ∉ hs)) = _
      rw [List.filter_cons]
      rw [if_neg (by simp)]
      apply List.filter_congr
      intro kv hkv
      have hne : kv.1 ≠ k0 := by
        intro he2
        apply hk0
        rw [← he2]
        exact List.mem_map.mpr ⟨kv, hkv, rfl⟩
      simp [hne]
    · rw [mapRemove, if_neg he]
      show ((k0, v) :: (mapRemove rest h).2).filter (fun kv => decide (kv.1 ∉ hs)) = _
      rw [List.filter_cons, List.filter_cons]
      rw [mapRemove_filter rest h hs hrest]
      by_cases hin : k0 ∈ hs
      · rw [if_neg (by simp [hin]), if_neg (by simp [hin])]
      · rw [if_pos (by simp [hin]), if_pos (by simp [hin, he])]

theorem removeAll_filter :
    ∀ (hs : List Str) (m : List (Str × JValue)), (mapKeys m).Nodup →
      removeAll m hs = m.filter (fun kv => decide (kv.1 ∉ hs))
  | [], m => by intro _; simp [removeAll]
  | h :: hs, m => by
    intro hnd
    have h1 : removeAll m (h :: hs) = removeAll (mapRemove m h).2 hs := rfl
    have hnd' : (mapKeys (mapRemove m h).2).Nodup :=
      ((mapRemove_sublist m h).map Prod.fst).nodup hnd
    rw [h1, removeAll_filter hs (mapRemove m h).2 hnd', mapRemove_filter m h hs hnd]

theorem mapInsert_keys_mem :
    ∀ (m : List (Str × JValue)) (k k' : Str) (v : JValue),
      k' ∈ mapKeys (mapInsert m k v) ↔ k' ∈ mapKeys m ∨ k' = k
  | [], k, k', v => by simp [mapInsert, mapKeys]
  | (k0, v0) :: rest, k, k', v => by
    by_cases he : k0 = k
    · simp only [mapInsert, if_pos he, mapKeys, List.map_cons, List.mem_cons]
      subst he
      constructor
      · rintro (h | h)
        · exact Or.inr h
        · exact Or.inl (Or.inr h)
      · rintro ((h | h) | h)
        · exact Or.inl h
        · exact Or.inr h
        · exact Or.inl h
    · simp only [mapInsert, if_neg he, mapKeys, List.map_cons, List.mem_cons]
      rw [show (rest.map Prod.fst) = mapKeys rest from rfl] at *
      constructor
      · rintro (h | h)
        · exact Or.inl (Or.inl h)
        · rcases (mapInsert_keys_mem rest k k' v).mp h with h1 | h2
          · exact Or.inl (Or.inr h1)
          · exact Or.inr h2
      · rintro ((h | h) | h)
        · exact Or.inl h
        · exact Or.inr ((mapInsert_keys_mem rest k k' v).mpr (Or.inl h))
        · exact Or.inr ((mapInsert_keys_mem rest k k' v).mpr (Or.inr h))

theorem mapInsert_keys_nodup :
    ∀ (m : List (Str × JValue)) (k : Str) (v : JValue),
      (mapKeys m).Nodup → (mapKeys (mapInsert m k v)).Nodup
  | [], k, v => by intro _; simp [mapInsert, mapKeys]
  | (k0, v0) :: rest, k, v => by
    intro hnd
    rw [mapKeys, List.map_cons] at hnd
    obtain ⟨hk0, hrest⟩ := List.nodup_cons.mp hnd
    by_cases he : k0 = k
    · simp only [mapInsert, if_pos he, mapKeys, List.map_cons]
      exact List.nodup_cons.mpr ⟨hk0, hrest⟩
    · simp only [mapInsert, if_neg he, mapKeys, List.map_cons]
      refine List.nodup_cons.mpr ⟨?_, mapInsert_keys_nodup rest k v hrest⟩
      intro hmem
      rcases (mapInsert_keys_mem rest k k0 v).mp hmem with h1 | h2
      · exact hk0 h1
      · exact he h2

theorem mapCollect_keys_nodup_aux :
    ∀ (l m : List (Str × JValue)), (mapKeys m).Nodup →
      (mapKeys (l.foldl (fun m kv => mapInsert m kv.1 kv.2) m)).Nodup
  | [], m => fun h => h
  | kv :: l, m => by
    intro h
    exact mapCollect_keys_nodup_aux l (mapInsert m kv.1 kv.2)
      (mapInsert_keys_nodup m kv.1 kv.2 h)

theorem mapCollect_keys_nodup (l : List (Str × JValue)) : (mapKeys (mapCollect l)).Nodup :=
  mapCollect_keys_nodup_aux l [] (by simp [mapKeys])

theorem mapInsert_mem_val :
    ∀ (m : List (Str × JValue)) (k : Str) (v : JValue) (kv : Str × JValue),
      kv ∈ mapInsert m k v → kv ∈ m ∨ kv.2 = v
  | [], k, v, kv => by
    intro h
    simp only [mapInsert, List.mem_singleton] at h
    exact Or.inr (by rw [h])
  | (k0, v0) :: rest, k, v, kv => by
    intro h
    by_cases he : k0 = k
    · simp only [mapInsert, if_pos he, List.mem_cons] at h
      rcases h with h | h
      · exact Or.inr (by rw [h])
      · exact Or.inl (List.mem_cons_of_mem _ h)
    · simp only [mapInsert, if_neg he, List.mem_cons] at h
      rcases h with h | h
      · exact Or.inl (h ▸ List.mem_cons_self _ _)
      · rcases mapInsert_mem_val rest k v kv h with h1 | h2
        · exact Or.inl (List.mem_cons_of_mem _ h1)
        · exact Or.inr h2

theorem mapCollect_mem_val_aux (l : List (Str × JValue)) :
    ∀ (m : List (Str × JValue)) (kv : Str × JValue),
      kv ∈ l.foldl (fun m kv => mapInsert m kv.1 kv.2) m →
      kv ∈ m ∨ kv.2 ∈ l.map Prod.snd := by
  induction l with
  | nil => intro m kv h; exact Or.inl h
  | cons kv0 l ih =>
    intro m kv h
    rw [List.foldl_cons] at h
    rcases ih (mapInsert m kv0.1 kv0.2) kv h with h1 | h2
    · rcases mapInsert_mem_val m kv0.1 kv0.2 kv h1 with h3 | h4
      · exact Or.inl h3
      · exact Or.inr (by rw [List.map_cons, h4]; exact List.mem_cons_self _ _)
    · exact Or.inr (by rw [List.map_cons]; exact List.mem_cons_of_mem _ h2)

theorem mapCollect_mem_val (l : List (Str × JValue)) (kv : Str × JValue)
    (h : kv ∈ mapCollect l) : kv.2 ∈ l.map Prod.snd := by
  rcases mapCollect_mem_val_aux l [] kv h with h1 | h2
  · exact absurd h1 (List.not_mem_nil kv)
  · exact h2

mutual

theorem flattenedIter_scalar :
    ∀ (v : JValue) (pfx : List Segment) (kv : List Segment × JValue),
      kv ∈ flattenedIter pfx v → isScalar kv.2 = true
  | .null, pfx, kv => by intro h; simp [flattenedIter] at h; simp [h, isScalar]
  | .bool b, pfx, kv => by intro h; simp [flattenedIter] at h; simp [h, isScalar]
  | .num n, pfx, kv => by intro h; simp [flattenedIter] at h; simp [h, isScalar]
  | .str s, pfx, kv => by intro h; simp [flattenedIter] at h; simp [h, isScalar]
  | .arr xs, pfx, kv => by
    intro h
    rw [show flattenedIter pfx (.arr xs) = flattenedArr pfx 0 xs from by
      simp [flattenedIter]] at h
    exact flattenedArr_scalar xs pfx 0 kv h
  | .obj kvs, pfx, kv => by
    intro h
    rw [show flattenedIter pfx (.obj kvs) = flattenedObj pfx kvs from by
      simp [flattenedIter]] at h
    exact flattenedObj_scalar kvs pfx kv h

theorem flattenedArr_scalar :
    ∀ (xs : List JValue) (pfx : List Segment) (i : Nat) (kv : List Segment × JValue),
      kv ∈ flattenedArr pfx i xs → isScalar kv.2 = true
  | [], pfx, i, kv => by intro h; simp [flattenedArr] at h
  | x :: xs, pfx, i, kv => by
    intro h
    rw [show flattenedArr pfx i (x :: xs) =
        flattenedIter (pfx ++ [.idx i]) x ++ flattenedArr pfx (i + 1) xs from by
      simp [flattenedArr]] at h
    rcases List.mem_append.mp h with h1 | h2
    · exact flattenedIter_scalar x (pfx ++ [.idx i]) kv h1
    · exact flattenedArr_scalar xs pfx (i + 1) kv h2

theorem flattenedObj_scalar :
    ∀ (kvs : List (Str × JValue)) (pfx : List Segment) (kv : List Segment × JValue),
      kv ∈ flattenedObj pfx kvs → isScalar kv.2 = true
  | [], pfx, kv => by intro h; simp [flattenedObj] at h
  | (k, v) :: kvs, pfx, kv => by
    intro h
    rw [show flattenedObj pfx ((k, v) :: kvs) =
        flattenedIter (pfx ++ [.field k]) v ++ flattenedObj pfx kvs from by
      simp [flattenedObj]] at h
    rcases List.mem_append.mp h with h1 | h2
    · exact flattenedIter_scalar v (pfx ++ [.field k]) kv h1
    · exact flattenedObj_scalar kvs pfx kv h2

end

theorem flattened_scalar (t : JValue) : ∀ kv ∈ flattened t, isScalar kv.2 = true := by
  intro kv h
  have hval := mapCollect_mem_val _ kv h
  simp only [List.map_map, List.mem_map] at hval
  obtain ⟨pv, hpv, heq⟩ := hval
  have := flattenedIter_scalar t [] pv hpv
  simp only [Function.comp] at heq
  rw [heq] at this
  exact this

theorem flattened_keys_nodup (t : JValue) : (mapKeys (flattened t)).Nodup :=
  mapCollect_keys_nodup _

/-- Claim C10: once the header is set, an item whose flattened key set is
contained in the header serializes successfully: each header key missing
from the item falls back to Null and is rendered as the empty text, and the
row is appended to the written output; the second conjunct records that the
null placeholder is the empty text. -/
theorem c10_subset_write :
    (∀ (hs : List Str) (rows : List (List Str)) (item : JValue),
      hs.Nodup → (∀ kv ∈ flattened item, kv.1 ∈ hs) →
      wserialize (some hs, rows) item =
        .ok (hs, rows ++
          [hs.map (fun h => cellText ((mapGet (flattened item) h).getD .null))])) ∧
    cellText .null = str "" := by
  constructor
  · intro hs rows item hnd hsub
    have hrow := buildRow_spec hs (flattened item) (flattened_scalar item) hnd
    have hleft : removeAll (flattened item) hs =
        (flattened item).filter (fun kv => decide (kv.1 ∉ hs)) :=
      removeAll_filter hs (flattened item) (flattened_keys_nodup item)
    have hnil : (flattened item).filter (fun kv => decide (kv.1 ∉ hs)) = [] := by
      rw [List.filter_eq_nil_iff]
      intro kv hkv
      simp [hsub kv hkv]
    rw [hnil] at hleft
    simp only [wserialize, Option.getD_some]
    rw [hrow, hleft]
    rfl
  · rfl

/-- Witness for c10_subset_write: a subset item against a two-column header. -/
theorem c10_subset_write_witness :
    wserialize (some [str "a", str "b"], []) (.obj [(str "a", .num 3)]) =
      .ok ([str "a", str "b"],
        [] ++ [[str "a", str "b"].map
          (fun h => cellText ((mapGet (flattened (.obj [(str "a", .num 3)])) h).getD
            .null))]) :=
  c10_subset_write.1 [str "a", str "b"] [] (.obj [(str "a", .num 3)])
    (by decide)
    (by simp [flattened, flattenedIter, flattenedObj, flattenedArr, encodePath, joinTag,
      Segment.toStr, mapCollect, mapInsert, str])

/-- Claim C7, counterexample: after the header a, b is established, the
second item has the strictly smaller key set containing only a, so its key
set is not equal to the header set, yet serialization succeeds and the row
is written with an empty cell for b, contradicting the claim that any
unequal key set fails. -/
theorem c7_counterexample :
    str "b" ∈ [str "a", str "b"] ∧
    str "b" ∉ mapKeys (flattened (.obj [(str "a", .num 3)])) ∧
    wserialize (some [str "a", str "b"], [[str "a", str "b"], [str "1", str "2"]])
      (.obj [(str "a", .num 3)]) =
      .ok ([str "a", str "b"],
        [[str "a", str "b"], [str "1", str "2"], [str "3", str ""]]) := by
  refine ⟨by decide, ?_, ?_⟩
  · simp [flattened, flattenedIter, flattenedObj, flattenedArr, encodePath, joinTag,
      Segment.toStr, mapCollect, mapInsert, mapKeys, str]
  · simp [wserialize, flattened, flattenedIter, flattenedObj, flattenedArr, encodePath,
      joinTag, Segment.toStr, mapCollect, mapInsert, buildRow, mapRemove, cellText,
      isScalar, natToDec, natToDecAux, digitChar, str]

/-- Claim C7 as amended: the first item derives and writes the header from
its flattened key order; a subsequent item fails exactly when it carries
keys outside the header, with the extra-fields error listing precisely those
extra entries, and in that case no data row is produced (the outcome carries
no state). -/
theorem c7_extra_fields :
    (∀ (hs : List Str) (rows : List (List Str)) (item : JValue),
      hs.Nodup →
      (flattened item).filter (fun kv => decide (kv.1 ∉ hs)) ≠ [] →
      wserialize (some hs, rows) item =
        .err (.extraValuesComparedToHeaders
          ((flattened item).filter (fun kv => decide (kv.1 ∉ hs))))) ∧
    (∀ (rows : List (List Str)) (item : JValue),
      wserialize (none, rows) item =
        .ok ((flattened item).map Prod.fst,
          (rows ++ [(flattened item).map Prod.fst]) ++
            [((flattened item).map Prod.fst).map
              (fun h => cellText ((mapGet (flattened item) h).getD .null))])) := by
  constructor
  · intro hs rows item hnd hne
    have hrow := buildRow_spec hs (flattened item) (flattened_scalar item) hnd
    have hleft : removeAll (flattened item) hs =
        (flattened item).filter (fun kv => decide (kv.1 ∉ hs)) :=
      removeAll_filter hs (flattened item) (flattened_keys_nodup item)
    have hie : ((flattened item).filter
        (fun kv => decide (kv.1 ∉ hs))).isEmpty = false := by
      cases hc : (flattened item).filter (fun kv => decide (kv.1 ∉ hs)) with
      | nil => exact absurd hc hne
      | cons a l => rfl
    simp only [wserialize, Option.getD_some]
    rw [hrow, hleft]
    dsimp only
    rw [hie]
    rfl
  · intro rows item
    have hnd : ((flattened item).map Prod.fst).Nodup := flattened_keys_nodup item
    have hrow := buildRow_spec ((flattened item).map Prod.fst) (flattened item)
      (flattened_scalar item) hnd
    have hleft : removeAll (flattened item) ((flattened item).map Prod.fst) =
        (flattened item).filter
          (fun kv => decide (kv.1 ∉ (flattened item).map Prod.fst)) :=
      removeAll_filter _ (flattened item) (flattened_keys_nodup item)
    have hnil : (flattened item).filter
        (fun kv => decide (kv.1 ∉ (flattened item).map Prod.fst)) = [] := by
      rw [List.filter_eq_nil_iff]
      intro kv hkv
      simp [List.mem_map.mpr ⟨kv, hkv, rfl⟩]
    rw [hnil] at hleft
    simp only [wserialize, Option.getD_none]
    rw [hrow, hleft]
    rfl

/-- Witness for c7_extra_fields: an item with the extra key c against the
header a, b, and a first item establishing its own header. -/
theorem c7_extra_fields_witness :
    wserialize (some [str "a", str "b"], []) (.obj [(str "a", .num 1), (str "c", .num 2)]) =
      .err (.extraValuesComparedToHeaders
        ((flattened (.obj [(str "a", .num 1), (str "c", .num 2)])).filter
          (fun kv => decide (kv.1 ∉ [str "a", str "b"])))) :=
  c7_extra_fields.1 [str "a", str "b"] [] (.obj [(str "a", .num 1), (str "c", .num 2)])
    (by decide)
    (by simp [flattened, flattenedIter, flattenedObj, flattenedArr, encodePath, joinTag,
      Segment.toStr, mapCollect, mapInsert, str])

/-- Claim C8, counterexample: the token idx-18446744073709551616 matches the
reserved-prefix-plus-decimal pattern (its digits parse as the value 2^64),
yet it decodes as a field name, because Rust's usize parsing rejects values
that do not fit in the 64-bit machine word. -/
theorem c8_counterexample :
    parseDigits (str "18446744073709551616") = some (2 ^ 64) ∧
    Segment.fromStr (str "idx-18446744073709551616") =
      .field (str "idx-18446744073709551616") ∧
    Segment.fromStr (str "idx-18446744073709551616") ≠ .idx (2 ^ 64) := by
  refine ⟨by decide, by decide, by decide⟩

/-- Claim C8 as amended: encoding maps an index to the reserved prefix
followed by its decimal value and a field to its literal name; decoding
inverts that for every index below 2^64 (the machine word bound of usize
parsing), and every token is decoded, without failing, either as some index
or as a field carrying the token itself. -/
theorem c8_path_codec :
    (∀ n : Nat, Segment.toStr (.idx n) = str "idx-" ++ natToDec n) ∧
    (∀ s : Str, Segment.toStr (.field s) = s) ∧
    (∀ n : Nat, n < 2 ^ 64 → Segment.fromStr (str "idx-" ++ natToDec n) = .idx n) ∧
    (∀ s : Str, (∃ n, Segment.fromStr s = .idx n) ∨ Segment.fromStr s = .field s) := by
  refine ⟨fun n => rfl, fun s => rfl, ?_, ?_⟩
  · intro n h
    rw [show str "idx-" ++ natToDec n = Segment.toStr (.idx n) from rfl]
    exact Segment.fromStr_toStr_idx h
  · intro s
    unfold Segment.fromStr
    cases hs : stripPfx ARR_PFX s with
    | none => simp
    | some rest =>
      dsimp only
      cases hp : parseUsize rest with
      | none => simp
      | some n => exact Or.inl ⟨n, rfl⟩

/-- Witness for c8_path_codec: decoding the encoding of index 3. -/
theorem c8_path_codec_witness :
    Segment.fromStr (str "idx-" ++ natToDec 3) = .idx 3 :=
  c8_path_codec.2.2.1 3 (by decide)

/-- Witness for c9_inference_order at concrete inputs covering the layers. -/
theorem c9_inference_order_witness :
    inferText (str "42") = .rI 8 42 ∧
    inferText (str "300") = .rI 16 300 ∧
    inferText (str "3.5") = .rF32 (str "3.5") ∧
    inferText (str "x") = .rChar 'x' ∧
    inferText (str "xy") = .rStr (str "xy") :=
  ⟨c9_inference_order.2.1 (str "42") 42 (by decide),
   c9_inference_order.2.2.1 (str "300") 300 (by decide) (by decide),
   c9_inference_order.2.2.2.2.2.2.2.1 (str "3.5") (by decide) (by decide) (by decide),
   c9_inference_order.2.2.2.2.2.2.2.2.1 'x' (by decide) (by decide) (by decide) (by decide),
   c9_inference_order.2.2.2.2.2.2.2.2.2 (str "xy") (by decide) (by decide) (by decide)
     (by decide) (by decide)⟩
/-! ### Claim C1: the round-trip law, supporting lemmas -/

theorem listSet_getD :
    ∀ (xs : List JValue) (i : Nat) (v d : JValue), i < xs.length →
      (xs.set i v).getD i d = v
  | [], i, v, d => by intro h; simp at h
  | x :: xs, 0, v, d => by intro _; rfl
  | x :: xs, i + 1, v, d => by
    intro h
    simp only [List.set, List.getD_cons_succ]
    exact listSet_getD xs i v d (by simpa using h)

theorem listGetD_oob :
    ∀ (xs : List JValue) (i : Nat) (d : JValue), xs.length ≤ i → xs.getD i d = d
  | [], i, d => by intro _; simp [List.getD]
  | x :: xs, 0, d => by intro h; simp at h
  | x :: xs, i + 1, d => by
    intro h
    simp only [List.getD_cons_succ]
    exact listGetD_oob xs i d (by simpa using h)

theorem getD_append_last :
    ∀ (xs : List JValue) (a d : JValue), (xs ++ [a]).getD xs.length d = a
  | [], a, d => rfl
  | x :: xs, a, d => by
    simp only [List.cons_append, List.length_cons, List.getD_cons_succ]
    exact getD_append_last xs a d

theorem set_append_last :
    ∀ (xs : List JValue) (a v : JValue), (xs ++ [a]).set xs.length v = xs ++ [v]
  | [], a, v => rfl
  | x :: xs, a, v => by
    simp only [List.cons_append, List.length_cons, List.set]
    rw [show xs.append [a] = xs ++ [a] from rfl, set_append_last xs a v]

theorem mapGet_mapInsert_self :
    ∀ (m : List (Str × JValue)) (k : Str) (v : JValue), mapGet (mapInsert m k v) k = some v
  | [], k, v => by simp [mapInsert, mapGet]
  | (k0, v0) :: rest, k, v => by
    by_cases he : k0 = k
    · simp [mapInsert, mapGet, he]
    · simp [mapInsert, mapGet, he, mapGet_mapInsert_self rest k v]

theorem mapInsert_mapInsert :
    ∀ (m : List (Str × JValue)) (k : Str) (a b : JValue),
      mapInsert (mapInsert m k a) k b = mapInsert m k b
  | [], k, a, b => by simp [mapInsert]
  | (k0, v0) :: rest, k, a, b => by
    by_cases he : k0 = k
    · simp [mapInsert, he]
    · simp [mapInsert, he, mapInsert_mapInsert rest k a b]

theorem mapInsert_absent :
    ∀ (m : List (Str × JValue)) (k : Str) (v : JValue), mapGet m k = none →
      mapInsert m k v = m ++ [(k, v)]
  | [], k, v => by intro _; rfl
  | (k0, v0) :: rest, k, v => by
    intro h
    by_cases he : k0 = k
    · rw [mapGet, if_pos he] at h; exact absurd h (by simp)
    · rw [mapGet, if_neg he] at h
      rw [mapInsert, if_neg he, mapInsert_absent rest k v h]
      rfl

theorem mapGet_append :
    ∀ (m1 m2 : List (Str × JValue)) (k : Str),
      mapGet (m1 ++ m2) k =
        match mapGet m1 k with
        | some v => some v
        | none => mapGet m2 k
  | [], m2, k => rfl
  | (k0, v0) :: rest, m2, k => by
    by_cases he : k0 = k
    · simp [mapGet, he]
    · simp [mapGet, he, mapGet_append rest m2 k]

/-- Characterization of a successful applyPath walk as setAt. -/
theorem applyPath_spec :
    ∀ (p : List Segment) (v leaf : JValue), CanApply v p →
      applyPath v p leaf = .ok (setAt v p leaf)
  | [], v, leaf => by intro _; simp [applyPath, setAt]
  | .idx i :: rest, v, leaf => by
    intro hca
    obtain ⟨hsome, hle, hslot⟩ := hca
    cases v with
    | null =>
      simp only [arrView, Option.getD_some, List.length_nil, Nat.le_zero] at hle hslot
      subst hle
      have hrec := applyPath_spec rest .null leaf (by simpa using hslot)
      simp only [applyPath, applyIdx, setAt, arrView, Option.getD_some]
      rw [hrec]
      simp
    | arr xs =>
      simp only [arrView, Option.getD_some] at hle hslot
      by_cases hlt : i < xs.length
      · have hrec := applyPath_spec rest (xs.getD i .null) leaf hslot
        simp only [applyPath, applyIdx, setAt, arrView, Option.getD_some, if_pos hlt]
        rw [hrec]
      · have hi : i = xs.length := by omega
        have hnull : xs.getD i .null = .null := listGetD_oob xs i .null (by omega)
        rw [hnull] at hslot
        have hrec := applyPath_spec rest .null leaf hslot
        simp only [applyPath, applyIdx, setAt, arrView, Option.getD_some, if_neg hlt,
          if_pos hi]
        rw [hrec]
    | bool b => simp [arrView] at hsome
    | num n => simp [arrView] at hsome
    | str s => simp [arrView] at hsome
    | obj kvs => simp [arrView] at hsome
  | .field k :: rest, v, leaf => by
    intro hca
    obtain ⟨hsome, hslot⟩ := hca
    cases v with
    | null =>
      simp only [objView, Option.getD_some] at hslot
      have hrec := applyPath_spec rest ((mapGet [] k).getD .null) leaf hslot
      simp only [applyPath, applyField, setAt, objView, Option.getD_some]
      rw [hrec]
    | obj kvs =>
      simp only [objView, Option.getD_some] at hslot
      have hrec := applyPath_spec rest ((mapGet kvs k).getD .null) leaf hslot
      simp only [applyPath, applyField, setAt, objView, Option.getD_some]
      rw [hrec]
    | bool b => simp [objView] at hsome
    | num n => simp [objView] at hsome
    | str s => simp [objView] at hsome
    | arr xs => simp [objView] at hsome

@[simp] theorem arrView_null : arrView .null = some [] := rfl

@[simp] theorem arrView_arr (xs : List JValue) : arrView (.arr xs) = some xs := rfl

@[simp] theorem objView_null : objView .null = some [] := rfl

@[simp] theorem objView_obj (kvs : List (Str × JValue)) : objView (.obj kvs) = some kvs := rfl

theorem applyAll_append :
    ∀ (a b : List (List Segment × JValue)) (acc : JValue),
      applyAll acc (a ++ b) =
        match applyAll acc a with
        | .ok acc' => applyAll acc' b
        | e => e
  | [], b, acc => by simp [applyAll]
  | (p, leaf) :: a, b, acc => by
    simp only [List.cons_append, applyAll]
    cases applyPath acc p leaf with
    | ok acc' => exact applyAll_append a b acc'
    | err m => rfl
    | abort m => rfl

theorem atPathV_append :
    ∀ (p q : List Segment) (v : JValue), atPathV v (p ++ q) = atPathV (atPathV v p) q
  | [], q, v => rfl
  | .idx i :: p, q, v => by
    simp only [List.cons_append, List.append_eq, atPathV]
    exact atPathV_append p q _
  | .field k :: p, q, v => by
    simp only [List.cons_append, List.append_eq, atPathV]
    exact atPathV_append p q _

theorem CanApply_append :
    ∀ (p q : List Segment) (v : JValue),
      CanApply v (p ++ q) ↔ CanApply v p ∧ CanApply (atPathV v p) q
  | [], q, v => by simp [CanApply, atPathV]
  | .idx i :: p, q, v => by
    simp only [List.cons_append, List.append_eq, CanApply, atPathV]
    rw [CanApply_append p q _]
    tauto
  | .field k :: p, q, v => by
    simp only [List.cons_append, List.append_eq, CanApply, atPathV]
    rw [CanApply_append p q _]
    tauto

/-- Setting along a composite path factors through the intermediate node. -/
theorem setAt_append :
    ∀ (p q : List Segment) (v w : JValue), CanApply v p →
      setAt v (p ++ q) w = setAt v p (setAt (atPathV v p) q w)
  | [], q, v, w => by intro _; simp [setAt, atPathV]
  | .idx i :: p, q, v, w => by
    intro hca
    obtain ⟨hsome, hle, hslot⟩ := hca
    simp only [List.cons_append, List.append_eq, setAt, atPathV]
    by_cases hlt : i < ((arrView v).getD []).length
    · rw [if_pos hlt, if_pos hlt, setAt_append p q _ w hslot]
    · have hnull : ((arrView v).getD []).getD i .null = .null :=
        listGetD_oob _ i .null (by omega)
      rw [hnull] at hslot
      rw [if_neg hlt, if_neg hlt, hnull, setAt_append p q _ w hslot]
  | .field k :: p, q, v, w => by
    intro hca
    obtain ⟨hsome, hslot⟩ := hca
    simp only [List.cons_append, List.append_eq, setAt, atPathV]
    rw [setAt_append p q _ w hslot]

theorem atPathV_setAt :
    ∀ (p : List Segment) (v w : JValue), CanApply v p → atPathV (setAt v p w) p = w
  | [], v, w => by intro _; rfl
  | .idx i :: p, v, w => by
    intro hca
    obtain ⟨hsome, hle, hslot⟩ := hca
    simp only [setAt]
    by_cases hlt : i < ((arrView v).getD []).length
    · rw [if_pos hlt]
      simp only [atPathV, arrView_arr, Option.getD_some]
      rw [listSet_getD _ i _ .null (by simpa using hlt)]
      exact atPathV_setAt p _ w hslot
    · have hi : i = ((arrView v).getD []).length := by omega
      have hnull : ((arrView v).getD []).getD i .null = .null :=
        listGetD_oob _ i .null (by omega)
      rw [hnull] at hslot
      rw [if_neg hlt]
      simp only [atPathV, arrView_arr, Option.getD_some]
      rw [hi, getD_append_last]
      exact atPathV_setAt p _ w hslot
  | .field k :: p, v, w => by
    intro hca
    obtain ⟨hsome, hslot⟩ := hca
    simp only [setAt, atPathV, objView_obj, Option.getD_some]
    rw [mapGet_mapInsert_self]
    simp only [Option.getD_some]
    exact atPathV_setAt p _ w hslot

theorem CanApply_setAt :
    ∀ (p : List Segment) (v w : JValue), CanApply v p → CanApply (setAt v p w) p
  | [], v, w => by intro _; trivial
  | .idx i :: p, v, w => by
    intro hca
    obtain ⟨hsome, hle, hslot⟩ := hca
    simp only [setAt]
    by_cases hlt : i < ((arrView v).getD []).length
    · rw [if_pos hlt]
      refine ⟨by simp, ?_, ?_⟩
      · simp only [CanApply, arrView_arr, Option.getD_some, List.length_set]
        omega
      · simp only [arrView_arr, Option.getD_some]
        rw [listSet_getD _ i _ .null (by simpa using hlt)]
        exact CanApply_setAt p _ w hslot
    · have hi : i = ((arrView v).getD []).length := by omega
      have hnull : ((arrView v).getD []).getD i .null = .null :=
        listGetD_oob _ i .null (by omega)
      rw [hnull] at hslot
      rw [if_neg hlt]
      refine ⟨by simp, ?_, ?_⟩
      · simp only [arrView_arr, Option.getD_some, List.length_append, List.length_cons,
          List.length_nil]
        omega
      · simp only [arrView_arr, Option.getD_some]
        rw [hi, getD_append_last]
        exact CanApply_setAt p _ w hslot
  | .field k :: p, v, w => by
    intro hca
    obtain ⟨hsome, hslot⟩ := hca
    simp only [setAt]
    refine ⟨by simp, ?_⟩
    simp only [objView_obj, Option.getD_some]
    rw [mapGet_mapInsert_self]
    simp only [Option.getD_some]
    exact CanApply_setAt p _ w hslot

/-- Setting twice at the same path keeps only the second write. -/
theorem setAt_setAt :
    ∀ (p : List Segment) (v a b : JValue), CanApply v p →
      setAt (setAt v p a) p b = setAt v p b
  | [], v, a, b => by intro _; rfl
  | .idx i :: p, v, a, b => by
    intro hca
    obtain ⟨hsome, hle, hslot⟩ := hca
    simp only [setAt]
    by_cases hlt : i < ((arrView v).getD []).length
    · rw [if_pos hlt]
      simp only [arrView_arr, Option.getD_some]
      rw [if_pos (by simpa using hlt)]
      rw [listSet_getD _ i _ .null (by simpa using hlt), List.set_set]
      rw [setAt_setAt p _ a b hslot, if_pos hlt]
    · have hi : i = ((arrView v).getD []).length := by omega
      have hnull : ((arrView v).getD []).getD i .null = .null :=
        listGetD_oob _ i .null (by omega)
      rw [hnull] at hslot
      rw [if_neg hlt]
      simp only [arrView_arr, Option.getD_some]
      rw [if_pos (by
        simp only [List.length_append, List.length_cons, List.length_nil]
        omega)]
      rw [hi, getD_append_last, set_append_last]
      rw [setAt_setAt p _ a b hslot, if_neg (by omega)]
  | .field k :: p, v, a, b => by
    intro hca
    obtain ⟨hsome, hslot⟩ := hca
    simp only [setAt, objView_obj, Option.getD_some]
    rw [mapGet_mapInsert_self]
    simp only [Option.getD_some]
    rw [mapInsert_mapInsert, setAt_setAt p _ a b hslot]

theorem hasSep_no_underscore :
    ∀ (s : Str), (∀ c ∈ s, c ≠ '_') → hasSep s = false
  | [] => by intro _; rfl
  | [c] => by intro _; rfl
  | c1 :: c2 :: rest => by
    intro h
    rw [hasSep]
    have h1 : c1 ≠ '_' := h c1 (by simp)
    have h2 := hasSep_no_underscore (c2 :: rest) (fun c hc => h c (List.mem_cons_of_mem _ hc))
    simp [h1, h2]

theorem getLast?_mem : ∀ (s : Str) (c : Char), s.getLast? = some c → c ∈ s
  | [], c => by intro h; simp at h
  | [a], c => by
    intro h
    simp only [List.getLast?_singleton, Option.some.injEq] at h
    simp [h]
  | a :: b :: rest, c => by
    intro h
    rw [List.getLast?_cons_cons] at h
    exact List.mem_cons_of_mem _ (getLast?_mem (b :: rest) c h)

theorem endsU_no_underscore (s : Str) (h : ∀ c ∈ s, c ≠ '_') : endsU s = false := by
  rw [endsU]
  cases hc : s.getLast? with
  | none => rfl
  | some c =>
    have hne := h c (getLast?_mem s c hc)
    simp [hne]

theorem getLast?_append_right : ∀ (a b : Str), b ≠ [] → (a ++ b).getLast? = b.getLast? := by
  intro a
  induction a with
  | nil => intro b _; rfl
  | cons c a ih =>
    intro b hb
    rw [List.cons_append]
    have hne : a ++ b ≠ [] := by
      intro h
      exact hb (List.append_eq_nil.mp h).2
    cases hab : a ++ b with
    | nil => exact absurd hab hne
    | cons d l =>
      rw [List.getLast?_cons_cons, ← hab, ih b hb]

theorem natToDec_ne_nil (n : Nat) : natToDec n ≠ [] := by
  by_cases h0 : n = 0
  · subst h0; simp [natToDec]
  · rw [natToDec, if_neg h0]
    obtain ⟨d, rest, heq, _⟩ := natToDecAux_shape n n [] (Nat.pos_of_ne_zero h0) le_rfl
    rw [heq]
    simp

theorem idxToken_no_underscore (n : Nat) : ∀ c ∈ ARR_PFX ++ natToDec n, c ≠ '_' := by
  intro c hc
  rcases List.mem_append.mp hc with h1 | h2
  · rw [ARR_PFX_eq] at h1
    fin_cases h1 <;> decide
  · exact natToDec_no_underscore n c h2

theorem goodToken_idx (n : Nat) : goodToken (ARR_PFX ++ natToDec n) = true := by
  rw [goodToken, hasSep_no_underscore _ (idxToken_no_underscore n)]
  rw [show endsU (ARR_PFX ++ natToDec n) = endsU (natToDec n) from by
    rw [endsU, endsU, getLast?_append_right _ _ (natToDec_ne_nil n)]]
  rw [endsU_no_underscore _ (natToDec_no_underscore n)]
  rfl

theorem Segment.fromStr_total (s : Str) :
    (∃ n, Segment.fromStr s = .idx n) ∨ Segment.fromStr s = .field s := by
  unfold Segment.fromStr
  cases hs : stripPfx ARR_PFX s with
  | none => simp
  | some rest =>
    dsimp only
    cases hp : parseUsize rest with
    | none => simp
    | some n => exact Or.inl ⟨n, rfl⟩

theorem goodField_fromStr (f : Str) (h : goodField f = true) :
    Segment.fromStr f = .field f := by
  rcases Segment.fromStr_total f with ⟨n, hn⟩ | hf
  · rw [goodField, hn] at h
    simp at h
  · exact hf

theorem goodField_token (f : Str) (h : goodField f = true) : goodToken f = true := by
  rw [goodField] at h
  simp only [Bool.and_eq_true, Bool.not_eq_true'] at h
  rw [goodToken, h.1.2, h.2]
  rfl

/-- Every segment token of a good segment is a good token, and decoding its
encoding recovers the segment. -/
theorem goodSeg_roundtrip (seg : Segment) (h : goodSeg seg = true) :
    goodToken (Segment.toStr seg) = true ∧
      Segment.fromStr (Segment.toStr seg) = seg := by
  cases seg with
  | idx n =>
    rw [goodSeg, decide_eq_true_eq] at h
    exact ⟨goodToken_idx n, Segment.fromStr_toStr_idx h⟩
  | field f =>
    rw [goodSeg] at h
    exact ⟨goodField_token f h, goodField_fromStr f h⟩

/-- Decoding the encoding of a non-empty good path recovers the path. -/
theorem parsePath_encodePath (p : List Segment) (hne : p ≠ [])
    (hgood : ∀ seg ∈ p, goodSeg seg = true) :
    parsePath (encodePath p) = p := by
  rw [parsePath, encodePath]
  rw [splitTag_joinTag (p.map Segment.toStr) (by simpa using hne)
    (by
      intro t ht
      rcases List.mem_map.mp ht with ⟨seg, hseg, rfl⟩
      exact (goodSeg_roundtrip seg (hgood seg hseg)).1)]
  rw [List.map_map]
  conv_rhs => rw [show p = p.map id from (List.map_id p).symm]
  apply List.map_congr_left
  intro seg hseg
  exact (goodSeg_roundtrip seg (hgood seg hseg)).2

mutual

theorem flat_good_iter :
    ∀ (v : JValue) (pfx : List Segment), WFv v = true →
      ∀ kv ∈ flattenedIter pfx v,
        ∃ q, kv.1 = pfx ++ q ∧ ∀ seg ∈ q, goodSeg seg = true
  | .null, pfx => by
    intro _ kv h
    simp [flattenedIter] at h
    exact ⟨[], by simp [h], by simp⟩
  | .bool b, pfx => by
    intro _ kv h
    simp [flattenedIter] at h
    exact ⟨[], by simp [h], by simp⟩
  | .num n, pfx => by
    intro _ kv h
    simp [flattenedIter] at h
    exact ⟨[], by simp [h], by simp⟩
  | .str s, pfx => by
    intro _ kv h
    simp [flattenedIter] at h
    exact ⟨[], by simp [h], by simp⟩
  | .arr xs, pfx => by
    intro hwf kv h
    rw [show flattenedIter pfx (.arr xs) = flattenedArr pfx 0 xs from by
      simp [flattenedIter]] at h
    simp only [WFv, Bool.and_eq_true, decide_eq_true_eq] at hwf
    obtain ⟨j, q, _, hj, heq, hq⟩ :=
      flat_good_arr xs pfx 0 hwf.2 (by have := hwf.1.2; omega) kv h
    refine ⟨.idx j :: q, heq, ?_⟩
    intro seg hseg
    rcases List.mem_cons.mp hseg with rfl | hs
    · simp only [goodSeg, decide_eq_true_eq]
      exact hj
    · exact hq seg hs
  | .obj kvs, pfx => by
    intro hwf kv h
    rw [show flattenedIter pfx (.obj kvs) = flattenedObj pfx kvs from by
      simp [flattenedIter]] at h
    simp only [WFv, Bool.and_eq_true, decide_eq_true_eq] at hwf
    obtain ⟨k, q, _, hgf, heq, hq⟩ := flat_good_obj kvs pfx hwf.2 kv h
    refine ⟨.field k :: q, heq, ?_⟩
    intro seg hseg
    rcases List.mem_cons.mp hseg with rfl | hs
    · simpa [goodSeg] using hgf
    · exact hq seg hs

theorem flat_good_arr :
    ∀ (xs : List JValue) (pfx : List Segment) (i : Nat), WFvList xs = true →
      i + xs.length ≤ 2 ^ 64 →
      ∀ kv ∈ flattenedArr pfx i xs,
        ∃ j q, i ≤ j ∧ j < 2 ^ 64 ∧ kv.1 = pfx ++ .idx j :: q ∧
          ∀ seg ∈ q, goodSeg seg = true
  | [], pfx, i => by
    intro _ _ kv h
    simp [flattenedArr] at h
  | x :: xs, pfx, i => by
    intro hwf hbound kv h
    simp only [WFvList, Bool.and_eq_true] at hwf
    simp only [List.length_cons] at hbound
    rw [show flattenedArr pfx i (x :: xs) =
        flattenedIter (pfx ++ [.idx i]) x ++ flattenedArr pfx (i + 1) xs from by
      simp [flattenedArr]] at h
    rcases List.mem_append.mp h with h1 | h2
    · obtain ⟨q, heq, hq⟩ := flat_good_iter x (pfx ++ [.idx i]) hwf.1 kv h1
      refine ⟨i, q, le_rfl, by omega, ?_, hq⟩
      rw [heq, List.append_assoc]
      rfl
    · obtain ⟨j, q, hij, hj, heq, hq⟩ :=
        flat_good_arr xs pfx (i + 1) hwf.2 (by omega) kv h2
      exact ⟨j, q, by omega, hj, heq, hq⟩

theorem flat_good_obj :
    ∀ (kvs : List (Str × JValue)) (pfx : List Segment), WFvObj kvs = true →
      ∀ kv ∈ flattenedObj pfx kvs,
        ∃ k q, k ∈ kvs.map Prod.fst ∧ goodField k = true ∧
          kv.1 = pfx ++ .field k :: q ∧ ∀ seg ∈ q, goodSeg seg = true
  | [], pfx => by
    intro _ kv h
    simp [flattenedObj] at h
  | (k0, v0) :: kvs, pfx => by
    intro hwf kv h
    simp only [WFvObj, Bool.and_eq_true] at hwf
    rw [show flattenedObj pfx ((k0, v0) :: kvs) =
        flattenedIter (pfx ++ [.field k0]) v0 ++ flattenedObj pfx kvs from by
      simp [flattenedObj]] at h
    rcases List.mem_append.mp h with h1 | h2
    · obtain ⟨q, heq, hq⟩ := flat_good_iter v0 (pfx ++ [.field k0]) hwf.1.2 kv h1
      refine ⟨k0, q, by rw [List.map_cons]; exact List.mem_cons_self _ _, hwf.1.1, ?_, hq⟩
      rw [heq, List.append_assoc]
      rfl
    · obtain ⟨k, q, hk, hgf, heq, hq⟩ := flat_good_obj kvs pfx hwf.2 kv h2
      exact ⟨k, q, by rw [List.map_cons]; exact List.mem_cons_of_mem _ hk, hgf, heq, hq⟩

end

mutual

theorem flat_nodup_iter :
    ∀ (v : JValue) (pfx : List Segment), WFv v = true →
      ((flattenedIter pfx v).map Prod.fst).Nodup
  | .null, pfx => by intro _; simp [flattenedIter]
  | .bool b, pfx => by intro _; simp [flattenedIter]
  | .num n, pfx => by intro _; simp [flattenedIter]
  | .str s, pfx => by intro _; simp [flattenedIter]
  | .arr xs, pfx => by
    intro hwf
    rw [show flattenedIter pfx (.arr xs) = flattenedArr pfx 0 xs from by
      simp [flattenedIter]]
    simp only [WFv, Bool.and_eq_true, decide_eq_true_eq] at hwf
    exact flat_nodup_arr xs pfx 0 hwf.2 (by have := hwf.1.2; omega)
  | .obj kvs, pfx => by
    intro hwf
    rw [show flattenedIter pfx (.obj kvs) = flattenedObj pfx kvs from by
      simp [flattenedIter]]
    simp only [WFv, Bool.and_eq_true, decide_eq_true_eq] at hwf
    exact flat_nodup_obj kvs pfx hwf.2 hwf.1.2

theorem flat_nodup_arr :
    ∀ (xs : List JValue) (pfx : List Segment) (i : Nat), WFvList xs = true →
      i + xs.length ≤ 2 ^ 64 →
      ((flattenedArr pfx i xs).map Prod.fst).Nodup
  | [], pfx, i => by intro _ _; simp [flattenedArr]
  | x :: xs, pfx, i => by
    intro hwf hbound
    simp only [WFvList, Bool.and_eq_true] at hwf
    simp only [List.length_cons] at hbound
    rw [show flattenedArr pfx i (x :: xs) =
        flattenedIter (pfx ++ [.idx i]) x ++ flattenedArr pfx (i + 1) xs from by
      simp [flattenedArr]]
    rw [List.map_append, List.nodup_append]
    refine ⟨flat_nodup_iter x (pfx ++ [.idx i]) hwf.1,
      flat_nodup_arr xs pfx (i + 1) hwf.2 (by omega), ?_⟩
    intro a ha hb
    rcases List.mem_map.mp ha with ⟨kv1, hkv1, hfst1⟩
    rcases List.mem_map.mp hb with ⟨kv2, hkv2, hfst2⟩
    obtain ⟨q1, heq1, _⟩ := flat_good_iter x (pfx ++ [.idx i]) hwf.1 kv1 hkv1
    obtain ⟨j, q2, hij, _, heq2, _⟩ :=
      flat_good_arr xs pfx (i + 1) hwf.2 (by omega) kv2 hkv2
    have hkk : (pfx ++ [Segment.idx i]) ++ q1 = pfx ++ .idx j :: q2 := by
      rw [← heq1, ← heq2, hfst1, hfst2]
    rw [List.append_assoc] at hkk
    have := List.append_cancel_left hkk
    simp only [List.cons_append, List.nil_append, List.cons.injEq, Segment.idx.injEq] at this
    omega

theorem flat_nodup_obj :
    ∀ (kvs : List (Str × JValue)) (pfx : List Segment), WFvObj kvs = true →
      keysDistinct (kvs.map Prod.fst) = true →
      ((flattenedObj pfx kvs).map Prod.fst).Nodup
  | [], pfx => by intro _ _; simp [flattenedObj]
  | (k0, v0) :: kvs, pfx => by
    intro hwf hkd
    simp only [WFvObj, Bool.and_eq_true] at hwf
    simp only [List.map_cons, keysDistinct, Bool.and_eq_true, decide_eq_true_eq] at hkd
    rw [show flattenedObj pfx ((k0, v0) :: kvs) =
        flattenedIter (pfx ++ [.field k0]) v0 ++ flattenedObj pfx kvs from by
      simp [flattenedObj]]
    rw [List.map_append, List.nodup_append]
    refine ⟨flat_nodup_iter v0 (pfx ++ [.field k0]) hwf.1.2,
      flat_nodup_obj kvs pfx hwf.2 hkd.2, ?_⟩
    intro a ha hb
    rcases List.mem_map.mp ha with ⟨kv1, hkv1, hfst1⟩
    rcases List.mem_map.mp hb with ⟨kv2, hkv2, hfst2⟩
    obtain ⟨q1, heq1, _⟩ := flat_good_iter v0 (pfx ++ [.field k0]) hwf.1.2 kv1 hkv1
    obtain ⟨k, q2, hk, _, heq2, _⟩ := flat_good_obj kvs pfx hwf.2 kv2 hkv2
    have hkk : (pfx ++ [Segment.field k0]) ++ q1 = pfx ++ .field k :: q2 := by
      rw [← heq1, ← heq2, hfst1, hfst2]
    rw [List.append_assoc] at hkk
    have := List.append_cancel_left hkk
    simp only [List.cons_append, List.nil_append, List.cons.injEq,
      Segment.field.injEq] at this
    exact hkd.1 (this.1 ▸ hk)

end

/-- At a composite root every emitted path is non-empty and consists of good
segments. -/
theorem flat_good_root (t : JValue) (hcomp : isScalar t = false) (hwf : WFv t = true) :
    ∀ kv ∈ flattenedIter [] t,
      kv.1 ≠ [] ∧ ∀ seg ∈ kv.1, goodSeg seg = true := by
  intro kv h
  cases t with
  | null => simp [isScalar] at hcomp
  | bool b => simp [isScalar] at hcomp
  | num n => simp [isScalar] at hcomp
  | str s => simp [isScalar] at hcomp
  | arr xs =>
    rw [show flattenedIter [] (.arr xs) = flattenedArr [] 0 xs from by
      simp [flattenedIter]] at h
    simp only [WFv, Bool.and_eq_true, decide_eq_true_eq] at hwf
    obtain ⟨j, q, _, hj, heq, hq⟩ :=
      flat_good_arr xs [] 0 hwf.2 (by have := hwf.1.2; omega) kv h
    rw [List.nil_append] at heq
    rw [heq]
    refine ⟨by simp, ?_⟩
    intro seg hseg
    rcases List.mem_cons.mp hseg with rfl | hs
    · simp only [goodSeg, decide_eq_true_eq]
      exact hj
    · exact hq seg hs
  | obj kvs =>
    rw [show flattenedIter [] (.obj kvs) = flattenedObj [] kvs from by
      simp [flattenedIter]] at h
    simp only [WFv, Bool.and_eq_true, decide_eq_true_eq] at hwf
    obtain ⟨k, q, _, hgf, heq, hq⟩ := flat_good_obj kvs [] hwf.2 kv h
    rw [List.nil_append] at heq
    rw [heq]
    refine ⟨by simp, ?_⟩
    intro seg hseg
    rcases List.mem_cons.mp hseg with rfl | hs
    · simpa [goodSeg] using hgf
    · exact hq seg hs

/-- The encoded keys of the emitted pairs are distinct at a well-formed
composite root: the path codec is injective on good non-empty paths. -/
theorem flattened_pairs_keys_nodup (t : JValue) (hcomp : isScalar t = false)
    (hwf : WFv t = true) :
    (((flattenedIter [] t).map (fun pv => (encodePath pv.1, pv.2))).map
      Prod.fst).Nodup := by
  rw [List.map_map]
  rw [show (Prod.fst ∘ fun pv : List Segment × JValue => (encodePath pv.1, pv.2)) =
    (encodePath ∘ Prod.fst) from rfl]
  rw [← List.map_map]
  apply List.Nodup.map_on ?inj (flat_nodup_iter t [] hwf)
  intro p1 hp1 p2 hp2 henc
  rcases List.mem_map.mp hp1 with ⟨kv1, hkv1, hfst1⟩
  rcases List.mem_map.mp hp2 with ⟨kv2, hkv2, hfst2⟩
  obtain ⟨hne1, hgood1⟩ := flat_good_root t hcomp hwf kv1 hkv1
  obtain ⟨hne2, hgood2⟩ := flat_good_root t hcomp hwf kv2 hkv2
  rw [← hfst1] at henc ⊢
  rw [← hfst2] at henc ⊢
  rw [← parsePath_encodePath kv1.1 hne1 hgood1, ← parsePath_encodePath kv2.1 hne2 hgood2,
    henc]

theorem mapCollect_eq_self_aux :
    ∀ (l m : List (Str × JValue)), (∀ kv ∈ l, mapGet m kv.1 = none) →
      (l.map Prod.fst).Nodup →
      l.foldl (fun acc kv => mapInsert acc kv.1 kv.2) m = m ++ l
  | [], m => by
    intro _ _
    simp
  | (k, v) :: l, m => by
    intro habs hnd
    simp only [List.map_cons, List.nodup_cons] at hnd
    have h0 : mapGet m k = none := habs (k, v) (by simp)
    have habs2 : ∀ kv ∈ l, mapGet (m ++ [(k, v)]) kv.1 = none := by
      intro kv hkv
      have hne : ¬ (k = kv.1) := by
        intro he
        exact hnd.1 (by rw [he]; exact List.mem_map.mpr ⟨kv, hkv, rfl⟩)
      rw [mapGet_append, habs kv (List.mem_cons_of_mem _ hkv)]
      dsimp only
      rw [mapGet, if_neg hne]
      rfl
    rw [List.foldl_cons]
    dsimp only
    rw [mapInsert_absent m k v h0, mapCollect_eq_self_aux l (m ++ [(k, v)]) habs2 hnd.2,
      List.append_assoc]
    rfl

/-- Collecting a pair list with distinct keys into the ordered map keeps it
unchanged. -/
theorem mapCollect_eq_self (l : List (Str × JValue)) (hnd : (l.map Prod.fst).Nodup) :
    mapCollect l = l := by
  rw [mapCollect, mapCollect_eq_self_aux l [] (fun kv _ => rfl) hnd]
  rfl

/-- On all-scalar pair lists, the unflatten fold is the applyAll fold over
the decoded paths. -/
theorem unflattenedGo_applyAll :
    ∀ (pairs : List (Str × JValue)) (acc : JValue),
      (∀ kv ∈ pairs, isScalar kv.2 = true) →
      unflattenedGo acc pairs =
        match applyAll acc (pairs.map (fun kv => (parsePath kv.1, kv.2))) with
        | .ok v => .ok v
        | .err m => .err (.other m)
        | .abort m => .abort m
  | [], acc => by
    intro _
    simp [unflattenedGo, applyAll]
  | (k, v) :: pairs, acc => by
    intro hsc
    have hv : isScalar v = true := hsc (k, v) (by simp)
    simp only [unflattenedGo]
    rw [if_pos hv]
    simp only [List.map_cons, applyAll]
    cases hap : applyPath acc (parsePath k) v with
    | ok acc' =>
      dsimp only
      exact unflattenedGo_applyAll pairs acc'
        (fun kv hkv => hsc kv (List.mem_cons_of_mem _ hkv))
    | err m => rfl
    | abort m => rfl

mutual

theorem applyAll_flat_iter :
    ∀ (v : JValue) (pfx : List Segment) (acc : JValue), WFv v = true →
      CanApply acc pfx → atPathV acc pfx = .null →
      applyAll acc (flattenedIter pfx v) = .ok (setAt acc pfx v)
  | .null, pfx, acc => by
    intro _ hca _
    rw [show flattenedIter pfx .null = [(pfx, .null)] from by simp [flattenedIter]]
    simp only [applyAll]
    rw [applyPath_spec pfx acc .null hca]
  | .bool b, pfx, acc => by
    intro _ hca _
    rw [show flattenedIter pfx (.bool b) = [(pfx, .bool b)] from by simp [flattenedIter]]
    simp only [applyAll]
    rw [applyPath_spec pfx acc (.bool b) hca]
  | .num n, pfx, acc => by
    intro _ hca _
    rw [show flattenedIter pfx (.num n) = [(pfx, .num n)] from by simp [flattenedIter]]
    simp only [applyAll]
    rw [applyPath_spec pfx acc (.num n) hca]
  | .str s, pfx, acc => by
    intro _ hca _
    rw [show flattenedIter pfx (.str s) = [(pfx, .str s)] from by simp [flattenedIter]]
    simp only [applyAll]
    rw [applyPath_spec pfx acc (.str s) hca]
  | .arr xs, pfx, acc => by
    intro hwf hca hnull
    rw [show flattenedIter pfx (.arr xs) = flattenedArr pfx 0 xs from by
      simp [flattenedIter]]
    simp only [WFv, Bool.and_eq_true, decide_eq_true_eq] at hwf
    obtain ⟨⟨hne, hlen⟩, hlist⟩ := hwf
    have := applyAll_flat_arr xs pfx acc [] hne hlist hca (by rw [hnull]; rfl)
    simpa using this
  | .obj kvs, pfx, acc => by
    intro hwf hca hnull
    rw [show flattenedIter pfx (.obj kvs) = flattenedObj pfx kvs from by
      simp [flattenedIter]]
    simp only [WFv, Bool.and_eq_true, decide_eq_true_eq] at hwf
    obtain ⟨⟨hne, hkd⟩, hobj⟩ := hwf
    have := applyAll_flat_obj kvs pfx acc [] hne hobj hkd hca
      (by rw [hnull]; rfl) (fun k _ => rfl)
    simpa using this

theorem applyAll_flat_arr :
    ∀ (xs : List JValue) (pfx : List Segment) (acc : JValue) (cur : List JValue),
      xs ≠ [] → WFvList xs = true → CanApply acc pfx →
      arrView (atPathV acc pfx) = some cur →
      applyAll acc (flattenedArr pfx cur.length xs) =
        .ok (setAt acc pfx (.arr (cur ++ xs)))
  | [], _, _, _ => by
    intro hne
    exact absurd rfl hne
  | x :: xs, pfx, acc, cur => by
    intro _ hwf hca hview
    simp only [WFvList, Bool.and_eq_true] at hwf
    rw [show flattenedArr pfx cur.length (x :: xs) =
        flattenedIter (pfx ++ [.idx cur.length]) x ++
          flattenedArr pfx (cur.length + 1) xs from by
      simp [flattenedArr]]
    rw [applyAll_append]
    have hca1 : CanApply acc (pfx ++ [.idx cur.length]) := by
      rw [CanApply_append]
      refine ⟨hca, ?_, ?_, trivial⟩
      · rw [hview]
        rfl
      · rw [hview]
        simp
    have hnull1 : atPathV acc (pfx ++ [.idx cur.length]) = .null := by
      rw [atPathV_append]
      simp only [atPathV, hview, Option.getD_some]
      exact listGetD_oob cur cur.length .null le_rfl
    rw [applyAll_flat_iter x (pfx ++ [Segment.idx cur.length]) acc hwf.1 hca1 hnull1]
    dsimp only
    have hacc1 : setAt acc (pfx ++ [.idx cur.length]) x =
        setAt acc pfx (.arr (cur ++ [x])) := by
      rw [setAt_append _ _ _ _ hca]
      congr 1
      simp only [setAt, hview, Option.getD_some]
      rw [if_neg (lt_irrefl _)]
    rw [hacc1]
    cases xs with
    | nil =>
      rw [show flattenedArr pfx (cur.length + 1) [] = [] from by simp [flattenedArr]]
      simp only [applyAll]
    | cons y ys =>
      have hca2 := CanApply_setAt pfx acc (.arr (cur ++ [x])) hca
      have hview2 : arrView (atPathV (setAt acc pfx (.arr (cur ++ [x]))) pfx) =
          some (cur ++ [x]) := by
        rw [atPathV_setAt pfx acc _ hca]
        rfl
      have hrec := applyAll_flat_arr (y :: ys) pfx (setAt acc pfx (.arr (cur ++ [x])))
        (cur ++ [x]) (by simp) hwf.2 hca2 hview2
      rw [show (cur ++ [x]).length = cur.length + 1 from by simp] at hrec
      rw [hrec, setAt_setAt pfx acc _ _ hca, List.append_assoc]
      rfl

theorem applyAll_flat_obj :
    ∀ (kvs : List (Str × JValue)) (pfx : List Segment) (acc : JValue)
      (cur : List (Str × JValue)),
      kvs ≠ [] → WFvObj kvs = true → keysDistinct (kvs.map Prod.fst) = true →
      CanApply acc pfx → objView (atPathV acc pfx) = some cur →
      (∀ k ∈ kvs.map Prod.fst, mapGet cur k = none) →
      applyAll acc (flattenedObj pfx kvs) = .ok (setAt acc pfx (.obj (cur ++ kvs)))
  | [], _, _, _ => by
    intro hne
    exact absurd rfl hne
  | (k0, v0) :: kvs, pfx, acc, cur => by
    intro _ hwf hkd hca hview habs
    simp only [WFvObj, Bool.and_eq_true] at hwf
    simp only [List.map_cons, keysDistinct, Bool.and_eq_true, decide_eq_true_eq] at hkd
    simp only [List.map_cons] at habs
    rw [show flattenedObj pfx ((k0, v0) :: kvs) =
        flattenedIter (pfx ++ [.field k0]) v0 ++ flattenedObj pfx kvs from by
      simp [flattenedObj]]
    rw [applyAll_append]
    have h0 : mapGet cur k0 = none := habs k0 (List.mem_cons_self _ _)
    have hca1 : CanApply acc (pfx ++ [.field k0]) := by
      rw [CanApply_append]
      refine ⟨hca, ?_, trivial⟩
      rw [hview]
      rfl
    have hnull1 : atPathV acc (pfx ++ [.field k0]) = .null := by
      rw [atPathV_append]
      simp only [atPathV, hview, Option.getD_some, h0, Option.getD_none]
    rw [applyAll_flat_iter v0 (pfx ++ [Segment.field k0]) acc hwf.1.2 hca1 hnull1]
    dsimp only
    have hacc1 : setAt acc (pfx ++ [.field k0]) v0 =
        setAt acc pfx (.obj (cur ++ [(k0, v0)])) := by
      rw [setAt_append _ _ _ _ hca]
      congr 1
      simp only [setAt, hview, Option.getD_some, h0, Option.getD_none]
      rw [mapInsert_absent cur k0 _ h0]
    rw [hacc1]
    cases kvs with
    | nil =>
      rw [show flattenedObj pfx [] = [] from by simp [flattenedObj]]
      simp only [applyAll]
    | cons e kvs' =>
      have hca2 := CanApply_setAt pfx acc (.obj (cur ++ [(k0, v0)])) hca
      have hview2 : objView (atPathV (setAt acc pfx (.obj (cur ++ [(k0, v0)]))) pfx) =
          some (cur ++ [(k0, v0)]) := by
        rw [atPathV_setAt pfx acc _ hca]
        rfl
      have habs2 : ∀ k ∈ (e :: kvs').map Prod.fst, mapGet (cur ++ [(k0, v0)]) k = none := by
        intro k hk
        have hne : ¬ (k0 = k) := by
          intro he
          exact hkd.1 (by rw [he]; exact hk)
        rw [mapGet_append, habs k (List.mem_cons_of_mem _ hk)]
        dsimp only
        rw [mapGet, if_neg hne]
        rfl
      have hrec := applyAll_flat_obj (e :: kvs') pfx
        (setAt acc pfx (.obj (cur ++ [(k0, v0)]))) (cur ++ [(k0, v0)])
        (by simp) hwf.2 hkd.2 hca2 hview2 habs2
      rw [hrec, setAt_setAt pfx acc _ _ hca, List.append_assoc]
      rfl

end

/-- Claim C1, counterexample: the tree {"a__b": 1} has scalar leaves and no
empty array or object, yet the flatten/unflatten round trip returns the
nested tree {"a": {"b": 1}}, not the original: the key "a__b" contains the
separator, so unflatten re-splits it into two segments. -/
theorem c1_counterexample :
    noEmpty (JValue.obj [(str "a__b", .num 1)]) = true ∧
    unflattened (.obj (flattened (JValue.obj [(str "a__b", .num 1)]))) =
      .ok (.obj [(str "a", .obj [(str "b", .num 1)])]) ∧
    JValue.obj [(str "a", .obj [(str "b", .num 1)])] ≠
      JValue.obj [(str "a__b", .num 1)] := by
  refine ⟨by decide, ?_, by decide⟩
  simp [flattened, flattenedIter, flattenedObj, encodePath, joinTag, Segment.toStr,
    mapCollect, mapInsert, unflattened, unflattenedGo, parsePath, splitTag, splitTagAux,
    Segment.fromStr, stripPfx, parseUsize, dropPlus, parseDigits, parseDigitsAux,
    digitVal, applyPath, applyField, mapGet, isScalar, str]

/-- Claim C1 as amended: unflatten of flatten is the identity on every tree
whose root is composite (an array or an object) and which is well-formed for
the codec: no empty array or object, arrays no longer than the 64-bit
machine word bound, sibling object keys distinct, and every object key a
field name that survives the encode/decode cycle (it does not match the
reserved index-token pattern, contains no "__" occurrence, and does not end
in an underscore). -/
theorem c1_roundtrip (t : JValue) (hcomp : isScalar t = false) (hwf : WFv t = true) :
    unflattened (.obj (flattened t)) = .ok t := by
  have hkeys := flattened_pairs_keys_nodup t hcomp hwf
  rw [show unflattened (.obj (flattened t)) = unflattenedGo .null (flattened t) from by
    simp [unflattened]]
  rw [show flattened t = (flattenedIter [] t).map (fun pv => (encodePath pv.1, pv.2)) from by
    rw [flattened, mapCollect_eq_self _ hkeys]]
  rw [unflattenedGo_applyAll _ .null (by
    intro kv hkv
    rcases List.mem_map.mp hkv with ⟨pv, hpv, rfl⟩
    exact flattenedIter_scalar t [] pv hpv)]
  rw [show (((flattenedIter [] t).map (fun pv => (encodePath pv.1, pv.2))).map
      (fun kv => (parsePath kv.1, kv.2))) = flattenedIter [] t from by
    rw [List.map_map]
    conv_rhs => rw [show flattenedIter [] t = (flattenedIter [] t).map id from
      (List.map_id _).symm]
    apply List.map_congr_left
    intro pv hpv
    obtain ⟨hne, hgood⟩ := flat_good_root t hcomp hwf pv hpv
    simp only [Function.comp, id]
    rw [parsePath_encodePath pv.1 hne hgood]]
  rw [show applyAll .null (flattenedIter [] t) = .ok (setAt .null [] t) from
    applyAll_flat_iter t [] .null hwf trivial rfl]
  rfl

/-- Witness for the amended round trip at a nested tree with an object, an
array and all scalar kinds below the root. -/
theorem c1_roundtrip_witness :
    isScalar (JValue.obj [(str "name", .str (str "Widget")),
      (str "price", .obj [(str "amount", .num 10),
        (str "tags", .arr [.str (str "a"), .bool true, .null])])]) = false ∧
    WFv (JValue.obj [(str "name", .str (str "Widget")),
      (str "price", .obj [(str "amount", .num 10),
        (str "tags", .arr [.str (str "a"), .bool true, .null])])]) = true ∧
    unflattened (.obj (flattened (JValue.obj [(str "name", .str (str "Widget")),
      (str "price", .obj [(str "amount", .num 10),
        (str "tags", .arr [.str (str "a"), .bool true, .null])])]))) =
      .ok (JValue.obj [(str "name", .str (str "Widget")),
        (str "price", .obj [(str "amount", .num 10),
          (str "tags", .arr [.str (str "a"), .bool true, .null])])]) :=
  ⟨by decide, by decide, c1_roundtrip _ (by decide) (by decide)⟩

end SerdeFlat
